import Mathlib

/-!
# Verification of the phys-sims/research-utils optimization core

Shallow embedding, in Lean 4, of the optimization core of the
`phys-sims/research-utils` repository: parameter-space encode/decode
(`phys_sims_utils/ml/param_space.py`), the optimization runner
(`phys_sims_utils/ml/runner.py`), strategy composition
(`sim_utils/ml/strategies/composition.py`), the Sobol strategy guard
(`sim_utils/ml/strategies/sobol.py`), and grid sweep sampling
(`research_utils/harness/sweep.py`).

Python floats are modelled as rationals (`ℚ`); Python exceptions are
modelled with `Except PyErr`; Python object identity and in-place mutation
(needed for the `decode` frame property) are modelled with an explicit
heap of container objects.
-/

namespace PhysSims

/-- A raised Python exception: its type name and message. -/
structure PyErr where
  typeName : String
  msg : String
  deriving DecidableEq, Repr

/-- `ParameterValue = float | int | str | bool` from `param_space.py`.
Python ints and floats are both modelled as `ℚ` (one `num` constructor),
matching Python numeric cross-type equality; `bool` is kept separate
because `isinstance(value, (int, float))` accepts it and `float(b)` maps
it to 0/1. -/
inductive ParamValue where
  | num (x : ℚ)
  | str (s : String)
  | bool (b : Bool)
  deriving DecidableEq, Repr

/-- Python numeric coercion `float(value)` for values accepted by
`isinstance(value, (int, float))` (which includes `bool`). -/
def ParamValue.asNum : ParamValue → Option ℚ
  | .num x => some x
  | .bool b => some (if b then 1 else 0)
  | .str _ => none

/-- Python `==` on `ParameterValue`s: numbers compare across int/float/bool
(`True == 1.0` holds in Python), strings compare as strings. -/
def ParamValue.pyEq : ParamValue → ParamValue → Bool
  | .str a, .str b => a == b
  | .str _, _ => false
  | _, .str _ => false
  | a, b =>
    match a.asNum, b.asNum with
    | some x, some y => x == y
    | _, _ => false

/-- Python 3 `round` to an integer: round-half-to-even (banker's rounding). -/
def pyRound (q : ℚ) : ℤ :=
  let f := ⌊q⌋
  let frac := q - f
  if frac < 1/2 then f
  else if 1/2 < frac then f + 1
  else if f % 2 = 0 then f else f + 1

/-- `Parameter` from `phys_sims_utils/ml/param_space.py`: name, optional
inclusive bounds, optional choices, optional transform (the
`TransformTuple` form: an encode function and a decode function), optional
dot path. -/
structure Parameter where
  name : String
  bounds : Option (ℚ × ℚ) := none
  choices : Option (List ParamValue) := none
  transform : Option ((ℚ → ℚ) × (ℚ → ℚ)) := none
  path : Option String := none

/-- `Parameter.__post_init__`: bounds xor choices, ordered bounds,
non-empty choices. -/
def Parameter.postInit (p : Parameter) : Except PyErr Unit :=
  if p.bounds.isNone ∧ p.choices.isNone then
    .error ⟨"ValueError", s!"Parameter {p.name} must define either bounds or choices"⟩
  else if p.bounds.isSome ∧ p.choices.isSome then
    .error ⟨"ValueError", s!"Parameter {p.name} cannot define both bounds and choices"⟩
  else
    match p.bounds with
    | some (lower, upper) =>
      if lower > upper then .error ⟨"ValueError", s!"Invalid bounds for {p.name}"⟩
      else .ok ()
    | none =>
      match p.choices with
      | some cs =>
        if cs.length = 0 then
          .error ⟨"ValueError", s!"Parameter {p.name} choices must not be empty"⟩
        else .ok ()
      | none => .ok ()

/-- `Parameter.resolved_path`. -/
def Parameter.resolvedPath (p : Parameter) : String :=
  match p.path with
  | some s => s
  | none => p.name

/-- Membership test `value in self.choices` under Python `==`. -/
def pyMem (v : ParamValue) (cs : List ParamValue) : Bool :=
  cs.any (fun c => c.pyEq v)

/-- `self.choices.index(value)`: index of the first element Python-equal to
`value` (`validate` has already established membership). -/
def pyIndex (v : ParamValue) (cs : List ParamValue) : Nat :=
  (cs.findIdx (fun c => c.pyEq v))

/-- `Parameter.validate`: membership for categorical parameters, inclusive
bounds for numeric ones. -/
def Parameter.validate (p : Parameter) (value : ParamValue) : Except PyErr Unit :=
  match p.choices with
  | some cs =>
    if pyMem value cs then .ok ()
    else .error ⟨"ValueError", s!"Parameter {p.name} invalid categorical choice"⟩
  | none =>
    match p.bounds with
    | none => .error ⟨"ValueError", s!"Parameter {p.name} missing bounds"⟩
    | some (lower, upper) =>
      match value.asNum with
      | none => .error ⟨"ValueError", s!"Parameter {p.name} requires numeric values"⟩
      | some numericValue =>
        if numericValue < lower ∨ numericValue > upper then
          .error ⟨"ValueError", s!"Parameter {p.name} out of bounds"⟩
        else .ok ()

/-- `Parameter.to_encoded`: validate, then categorical index or numeric
transform (identity when no transform is configured). -/
def Parameter.toEncoded (p : Parameter) (value : ParamValue) : Except PyErr ℚ :=
  match p.validate value with
  | .error e => .error e
  | .ok () =>
    match p.choices with
    | some cs => .ok ((pyIndex value cs : ℤ) : ℚ)
    | none =>
      match value.asNum with
      | none => .error ⟨"ValueError", s!"Parameter {p.name} requires numeric values"⟩
      | some numericValue =>
        match p.transform with
        | none => .ok numericValue
        | some (enc, _) => .ok (enc numericValue)

/-- The config-space counterpart of an encoded value for a numeric
parameter: the inverse transform applied to it (lines 83–88 of
`param_space.py`, factored out). -/
def Parameter.decodedOf (p : Parameter) (value : ℚ) : ℚ :=
  match p.transform with
  | none => value
  | some (_, dec) => dec value

/-- `Parameter.from_encoded`: categorical parameters round to the nearest
index and bound-check it; numeric parameters apply the inverse transform
and validate the decoded value. -/
def Parameter.fromEncoded (p : Parameter) (value : ℚ) : Except PyErr ParamValue :=
  match p.choices with
  | some cs =>
    let index := pyRound value
    if index < 0 ∨ index ≥ cs.length then
      .error ⟨"ValueError", s!"Parameter {p.name} categorical index out of bounds"⟩
    else
      match cs.get? index.toNat with
      | some c => .ok c
      | none => .error ⟨"IndexError", "unreachable: index was bound-checked"⟩
  | none =>
    let decoded := p.decodedOf value
    match p.validate (.num decoded) with
    | .error e => .error e
    | .ok () => .ok (.num decoded)

/-- A number Python-equals any value whose numeric coercion it equals. -/
theorem ParamValue.pyEq_num_of_asNum (v : ParamValue) (x : ℚ) (h : v.asNum = some x) :
    (ParamValue.num x).pyEq v = true := by
  cases v with
  | num y => simp [ParamValue.asNum] at h; simp [ParamValue.pyEq, ParamValue.asNum, h]
  | str s => simp [ParamValue.asNum] at h
  | bool b => simp [ParamValue.asNum] at h; simp [ParamValue.pyEq, ParamValue.asNum, ← h]

/-- C4. For every `Parameter` with bounds `[lo, hi]` whose transform is
absent or a pair of mutually inverse scalar functions:
`from_encoded (to_encoded v)` succeeds and Python-equals `v` for every
in-range value `v`, `to_encoded` fails for every numeric value outside
`[lo, hi]`, and `from_encoded` fails for every encoded value whose
config-space counterpart (inverse-transformed value) lies outside
`[lo, hi]`. -/
theorem C4_parameter_roundtrip_and_bounds
    (nm : String) (lo hi : ℚ) (tr : Option ((ℚ → ℚ) × (ℚ → ℚ))) (pth : Option String)
    (hinv : ∀ e d, tr = some (e, d) → ∀ x, d (e x) = x) :
    (∀ (v : ParamValue) (x : ℚ), v.asNum = some x → lo ≤ x → x ≤ hi →
      ∃ enc, (Parameter.mk nm (some (lo, hi)) none tr pth).toEncoded v = .ok enc ∧
        ∃ w, (Parameter.mk nm (some (lo, hi)) none tr pth).fromEncoded enc = .ok w ∧
          w.pyEq v = true) ∧
    (∀ (v : ParamValue) (x : ℚ), v.asNum = some x → (x < lo ∨ hi < x) →
      ∃ err, (Parameter.mk nm (some (lo, hi)) none tr pth).toEncoded v = .error err) ∧
    (∀ (e : ℚ),
      ((Parameter.mk nm (some (lo, hi)) none tr pth).decodedOf e < lo ∨
        hi < (Parameter.mk nm (some (lo, hi)) none tr pth).decodedOf e) →
      ∃ err, (Parameter.mk nm (some (lo, hi)) none tr pth).fromEncoded e = .error err) := by
  refine ⟨?_, ?_, ?_⟩
  · intro v x hv hlo hhi
    have hcond : ¬(x < lo ∨ hi < x) := by push_neg; exact ⟨hlo, hhi⟩
    cases htr : tr with
    | none =>
      refine ⟨x, ?_, ParamValue.num x, ?_, ParamValue.pyEq_num_of_asNum v x hv⟩
      · simp [Parameter.toEncoded, Parameter.validate, hv, hcond, htr]
      · simp [Parameter.fromEncoded, Parameter.decodedOf, Parameter.validate,
          ParamValue.asNum, htr, hcond]
    | some ed =>
      obtain ⟨enc, dec⟩ := ed
      have hdec : dec (enc x) = x := hinv enc dec htr x
      refine ⟨enc x, ?_, ParamValue.num x, ?_, ParamValue.pyEq_num_of_asNum v x hv⟩
      · simp [Parameter.toEncoded, Parameter.validate, hv, hcond, htr]
      · simp [Parameter.fromEncoded, Parameter.decodedOf, Parameter.validate,
          ParamValue.asNum, htr, hdec, hcond]
  · intro v x hv hout
    have hcond : (x < lo ∨ x > hi) := hout
    refine ⟨⟨"ValueError", s!"Parameter {nm} out of bounds"⟩, ?_⟩
    simp [Parameter.toEncoded, Parameter.validate, hv, hcond]
  · intro e hout
    refine ⟨⟨"ValueError", s!"Parameter {nm} out of bounds"⟩, ?_⟩
    simp only [Parameter.fromEncoded, Parameter.validate, ParamValue.asNum]
    simp [hout]

/-- Witness for C4 at the concrete parameter `x` with bounds `[0, 10]` and
no transform. -/
theorem C4_parameter_roundtrip_and_bounds_witness :
    (∀ (v : ParamValue) (x : ℚ), v.asNum = some x → (0 : ℚ) ≤ x → x ≤ 10 →
      ∃ enc, (Parameter.mk "x" (some (0, 10)) none none none).toEncoded v = .ok enc ∧
        ∃ w, (Parameter.mk "x" (some (0, 10)) none none none).fromEncoded enc = .ok w ∧
          w.pyEq v = true) ∧
    (∀ (v : ParamValue) (x : ℚ), v.asNum = some x → (x < 0 ∨ 10 < x) →
      ∃ err, (Parameter.mk "x" (some (0, 10)) none none none).toEncoded v = .error err) ∧
    (∀ (e : ℚ),
      ((Parameter.mk "x" (some (0, 10)) none none none).decodedOf e < 0 ∨
        10 < (Parameter.mk "x" (some (0, 10)) none none none).decodedOf e) →
      ∃ err, (Parameter.mk "x" (some (0, 10)) none none none).fromEncoded e = .error err) :=
  C4_parameter_roundtrip_and_bounds "x" 0 10 none none (fun e d h => by cases h)

/-! ## Shared result types (`sim_utils/shared`, `phys_sims_utils/shared`)

The `types.py` module these packages import is not present under `src/`;
the record shapes below are modelled from the spec's data model (§3) and
from how `runner.py`, `composition.py` and the strategies construct them.
The traceability fields (`config_hash`, `timestamp`, `provenance`) are
carried by none of the verified operations and are omitted. -/

/-- `Theta`: the named parameter-value mapping of one candidate. -/
abbrev Theta := List (String × ParamValue)

/-- `EvalResult`: one evaluation's outcome. Modelled from the spec: the
`theta`/`objective`/`metrics`/`artifacts`/`seed` fields used by the runner
and strategies (traceability metadata omitted). -/
structure EvalResult where
  theta : Theta
  objective : ℚ
  metrics : List (String × ℚ) := []
  artifacts : List (String × String) := []
  seed : ℤ := 0
  deriving DecidableEq, Repr

/-- `Candidate`: a strategy's proposed theta awaiting evaluation. -/
structure Candidate where
  theta : Theta
  deriving DecidableEq, Repr

/-- Python's `min(items, key=f)`: the first element attaining the minimum
key (later elements replace the accumulator only on strictly smaller key). -/
def pyMinBy (f : α → ℚ) : List α → Option α
  | [] => none
  | x :: xs => some (xs.foldl (fun acc y => if f y < f acc then y else acc) x)

/-- `OptimizationHistory`: evaluations, best-so-far, seed. Modelled from
the spec's data model; `composition.py` builds it without a seed and
`runner.py`/`random.py`/`sobol.py` with one, hence the optional seed. -/
structure OptimizationHistory where
  evaluations : List EvalResult
  best : Option EvalResult
  seed : Option ℤ := none
  deriving DecidableEq, Repr

/-! ## The optimizer-strategy contract (`research_utils/ml/strategies/base.py`) -/

/-- `OptimizerStrategy` protocol over an internal state type `σ`:
`ask` produces a candidate (possibly advancing internal random state),
`tell` records feedback, `is_converged` and `result` are read-only. -/
structure Strategy (σ : Type) where
  ask : σ → σ × Candidate
  tell : EvalResult → σ → σ
  isConverged : σ → Bool
  result : σ → OptimizationHistory

/-! ## OptimizationRunner (`phys_sims_utils/ml/runner.py`) -/

/-- `OptimizationRunner._safe_evaluate`: call the evaluator (the
`SimulationEvaluator` branch and the plain-callable branch both invoke it
with the candidate theta and the seed; `dict(theta)` copying is identity
in this pure model); any raised exception is converted into a penalty
`EvalResult`. -/
def safeEvaluate (ev : Theta → ℤ → Except PyErr EvalResult) (penaltyObjective : ℚ)
    (theta : Theta) (seed : ℤ) : EvalResult :=
  match ev theta seed with
  | .ok r => r
  | .error exc =>
    { theta := theta
      objective := penaltyObjective
      metrics := [("penalty", 1)]
      artifacts := [("error", exc.msg), ("error_type", exc.typeName)]
      seed := seed }

/-- The batch ask phase: `[self.strategy.ask() for _ in range(current_batch)]`. -/
def askBatch (S : Strategy σ) : Nat → σ → σ × List Candidate
  | 0, st => (st, [])
  | n + 1, st =>
    let p := S.ask st
    let q := askBatch S n p.1
    (q.1, p.2 :: q.2)

/-- The batch tell phase: `for candidate in candidates:` — derive the
per-evaluation seed as `self.seed + len(self.history)`, evaluate, tell,
record, and break once converged or the iteration target is reached. -/
def tellBatch (S : Strategy σ) (ev : Theta → ℤ → Except PyErr EvalResult)
    (seed : ℤ) (pen : ℚ) (iterations : Nat) :
    List Candidate → σ → List EvalResult → σ × List EvalResult
  | [], st, h => (st, h)
  | c :: cs, st, h =>
    let evalSeed := seed + h.length
    let r := safeEvaluate ev pen c.theta evalSeed
    let st1 := S.tell r st
    let h1 := h ++ [r]
    if S.isConverged st1 ∨ iterations ≤ h1.length then (st1, h1)
    else tellBatch S ev seed pen iterations cs st1 h1

theorem tellBatch_length_le (S : Strategy σ) (ev) (seed : ℤ) (pen : ℚ) (iterations : Nat) :
    ∀ (cands : List Candidate) (st : σ) (h : List EvalResult),
      h.length ≤ (tellBatch S ev seed pen iterations cands st h).2.length := by
  intro cands
  induction cands with
  | nil => intro st h; simp [tellBatch]
  | cons c cs ih =>
    intro st h
    simp only [tellBatch]
    split
    · simp
    · exact le_trans (by simp) (ih _ _)

theorem tellBatch_length_lt (S : Strategy σ) (ev) (seed : ℤ) (pen : ℚ) (iterations : Nat)
    (c : Candidate) (cs : List Candidate) (st : σ) (h : List EvalResult) :
    h.length < (tellBatch S ev seed pen iterations (c :: cs) st h).2.length := by
  simp only [tellBatch]
  split
  · simp
  · exact lt_of_lt_of_le (by simp) (tellBatch_length_le S ev seed pen iterations cs _ _)

theorem askBatch_length (S : Strategy σ) : ∀ (n : Nat) (st : σ),
    (askBatch S n st).2.length = n := by
  intro n
  induction n with
  | zero => intro st; simp [askBatch]
  | succ n ih => intro st; simp [askBatch, ih]

/-- The `while` loop of `OptimizationRunner.run`: while the recorded
history is shorter than the iteration target and the strategy has not
converged, ask a batch capped to the remaining budget and tell it. -/
def runFrom (S : Strategy σ) (ev : Theta → ℤ → Except PyErr EvalResult)
    (seed : ℤ) (pen : ℚ) (iterations batchSize : Nat) (hbs : 0 < batchSize)
    (st : σ) (h : List EvalResult) : σ × List EvalResult :=
  if _hcond : h.length < iterations ∧ S.isConverged st = false then
    let remaining := iterations - h.length
    let currentBatch := min batchSize remaining
    let p1 := askBatch S currentBatch st
    let p2 := tellBatch S ev seed pen iterations p1.2 p1.1 h
    runFrom S ev seed pen iterations batchSize hbs p2.1 p2.2
  else (st, h)
termination_by iterations - h.length
decreasing_by
  have hlen : (askBatch S (min batchSize (iterations - h.length)) st).2.length
      = min batchSize (iterations - h.length) := askBatch_length S _ st
  have hpos : 0 < min batchSize (iterations - h.length) := by
    exact lt_min hbs (by omega)
  have hne : (askBatch S (min batchSize (iterations - h.length)) st).2 ≠ [] := by
    intro hnil
    rw [hnil] at hlen
    simp at hlen
    omega
  obtain ⟨c, cs, hcc⟩ := List.exists_cons_of_ne_nil hne
  have := tellBatch_length_lt S ev seed pen iterations c cs
    (askBatch S (min batchSize (iterations - h.length)) st).1 h
  rw [← hcc] at this
  omega

/-- `OptimizationRunner` state: strategy (implementation plus current
internal state), evaluator, base seed, penalty objective, and owned
history. The optional logger is omitted (out of scope for the verified
claims; it only observes evaluations). -/
structure OptimizationRunner (σ : Type) where
  strategy : Option (Strategy σ × σ) := none
  evaluator : Option (Theta → ℤ → Except PyErr EvalResult) := none
  seed : ℤ := 0
  penaltyObjective : ℚ := 1000000000000
  history : List EvalResult := []

/-- `OptimizationRunner.best`: `min(self.history, key=objective)` when
history is non-empty. -/
def OptimizationRunner.best (R : OptimizationRunner σ) : Option EvalResult :=
  pyMinBy (fun item => item.objective) R.history

/-- `OptimizationRunner.result`: history snapshot. -/
def OptimizationRunner.result (R : OptimizationRunner σ) : OptimizationHistory :=
  { evaluations := R.history, best := R.best, seed := some R.seed }

/-- `OptimizationRunner.run`: validate arguments, then run the ask/tell
loop and return the updated runner with its history snapshot. -/
def OptimizationRunner.run (R : OptimizationRunner σ) (iterations batchSize : ℤ) :
    Except PyErr (OptimizationRunner σ × OptimizationHistory) :=
  if iterations < 0 then .error ⟨"ValueError", "iterations must be >= 0"⟩
  else if hbs : batchSize ≤ 0 then .error ⟨"ValueError", "batch_size must be > 0"⟩
  else
    match R.strategy, R.evaluator with
    | some (S, st), some ev =>
      let out := runFrom S ev R.seed R.penaltyObjective iterations.toNat batchSize.toNat
        (by omega) st R.history
      let R' : OptimizationRunner σ :=
        { R with strategy := some (S, out.1), history := out.2 }
      .ok (R', R'.result)
    | _, _ =>
      .error ⟨"ValueError", "OptimizationRunner.run requires both strategy and evaluator"⟩

/-- Every entry the tell phase appends was produced by `safeEvaluate` at
seed `base_seed + (absolute history position)`. -/
theorem tellBatch_spec (S : Strategy σ) (ev : Theta → ℤ → Except PyErr EvalResult)
    (seed : ℤ) (pen : ℚ) (iterations : Nat) :
    ∀ (cands : List Candidate) (st : σ) (h : List EvalResult),
      ∃ tail, (tellBatch S ev seed pen iterations cands st h).2 = h ++ tail ∧
        ∀ j (hj : j < tail.length),
          ∃ θ, tail.get ⟨j, hj⟩ = safeEvaluate ev pen θ (seed + h.length + j) := by
  intro cands
  induction cands with
  | nil =>
    intro st h
    exact ⟨[], by simp [tellBatch], by intro j hj; simp at hj⟩
  | cons c cs ih =>
    intro st h
    simp only [tellBatch]
    split
    · refine ⟨[safeEvaluate ev pen c.theta (seed + h.length)], by simp, ?_⟩
      intro j hj
      have hj0 : j = 0 := by simpa using hj
      subst hj0
      exact ⟨c.theta, by simp⟩
    · obtain ⟨tail', htail', hprop⟩ :=
        ih (S.tell (safeEvaluate ev pen c.theta (seed + h.length)) st)
          (h ++ [safeEvaluate ev pen c.theta (seed + h.length)])
      refine ⟨safeEvaluate ev pen c.theta (seed + h.length) :: tail', ?_, ?_⟩
      · rw [htail']
        simp
      · intro j hj
        match j with
        | 0 => exact ⟨c.theta, by simp⟩
        | j' + 1 =>
          have hj' : j' < tail'.length := by simpa using hj
          obtain ⟨θ, hθ⟩ := hprop j' hj'
          refine ⟨θ, ?_⟩
          have hget : (safeEvaluate ev pen c.theta (seed + h.length) :: tail').get ⟨j' + 1, hj⟩
              = tail'.get ⟨j', hj'⟩ := rfl
          rw [hget, hθ]
          congr 1
          simp only [List.length_append, List.length_singleton]
          push_cast
          ring

/-- Every history entry appended by the run loop was produced by
`safeEvaluate` at per-evaluation seed `base_seed + (absolute position)`. -/
theorem runFrom_spec (S : Strategy σ) (ev : Theta → ℤ → Except PyErr EvalResult)
    (seed : ℤ) (pen : ℚ) (iterations batchSize : Nat) (hbs : 0 < batchSize) :
    ∀ (st : σ) (h : List EvalResult),
      ∃ tail, (runFrom S ev seed pen iterations batchSize hbs st h).2 = h ++ tail ∧
        ∀ j (hj : j < tail.length),
          ∃ θ, tail.get ⟨j, hj⟩ = safeEvaluate ev pen θ (seed + h.length + j) := by
  suffices H : ∀ (m : Nat) (st : σ) (h : List EvalResult), iterations - h.length ≤ m →
      ∃ tail, (runFrom S ev seed pen iterations batchSize hbs st h).2 = h ++ tail ∧
        ∀ j (hj : j < tail.length),
          ∃ θ, tail.get ⟨j, hj⟩ = safeEvaluate ev pen θ (seed + h.length + j) by
    intro st h
    exact H (iterations - h.length) st h le_rfl
  intro m
  induction m with
  | zero =>
    intro st h hle
    rw [runFrom]
    have hneg : ¬(h.length < iterations ∧ S.isConverged st = false) := by
      intro hc
      omega
    rw [dif_neg hneg]
    exact ⟨[], by simp, fun j hj => by simp at hj⟩
  | succ m ih =>
    intro st h hle
    rw [runFrom]
    by_cases hcond : h.length < iterations ∧ S.isConverged st = false
    · rw [dif_pos hcond]
      simp only []
      obtain ⟨tail1, htail1, hprop1⟩ := tellBatch_spec S ev seed pen iterations
        (askBatch S (min batchSize (iterations - h.length)) st).2
        (askBatch S (min batchSize (iterations - h.length)) st).1 h
      have hlenask : (askBatch S (min batchSize (iterations - h.length)) st).2.length
          = min batchSize (iterations - h.length) := askBatch_length S _ st
      have hne : (askBatch S (min batchSize (iterations - h.length)) st).2 ≠ [] := by
        intro hnil
        rw [hnil] at hlenask
        simp at hlenask
        omega
      obtain ⟨c, cs, hcc⟩ := List.exists_cons_of_ne_nil hne
      have hlt : h.length <
          (tellBatch S ev seed pen iterations
            (askBatch S (min batchSize (iterations - h.length)) st).2
            (askBatch S (min batchSize (iterations - h.length)) st).1 h).2.length := by
        rw [hcc]
        exact tellBatch_length_lt S ev seed pen iterations c cs _ h
      obtain ⟨tail2, htail2, hprop2⟩ := ih
        (tellBatch S ev seed pen iterations
          (askBatch S (min batchSize (iterations - h.length)) st).2
          (askBatch S (min batchSize (iterations - h.length)) st).1 h).1
        (tellBatch S ev seed pen iterations
          (askBatch S (min batchSize (iterations - h.length)) st).2
          (askBatch S (min batchSize (iterations - h.length)) st).1 h).2
        (by omega)
      rw [htail1] at htail2 hprop2
      refine ⟨tail1 ++ tail2, ?_, ?_⟩
      · rw [htail1, htail2, List.append_assoc]
      · intro j hj
        have hlen1 : (h ++ tail1).length = h.length + tail1.length := by simp
        by_cases hjc : j < tail1.length
        · obtain ⟨θ, hθ⟩ := hprop1 j hjc
          refine ⟨θ, ?_⟩
          have hget : (tail1 ++ tail2).get ⟨j, hj⟩ = tail1.get ⟨j, hjc⟩ := by
            simp only [List.get_eq_getElem]
            exact List.getElem_append_left hjc
          rw [hget, hθ]
        · have hj2 : j - tail1.length < tail2.length := by
            simp only [List.length_append] at hj
            omega
          obtain ⟨θ, hθ⟩ := hprop2 (j - tail1.length) hj2
          refine ⟨θ, ?_⟩
          have hget : (tail1 ++ tail2).get ⟨j, hj⟩ = tail2.get ⟨j - tail1.length, hj2⟩ := by
            simp only [List.get_eq_getElem]
            exact List.getElem_append_right (by omega)
          rw [hget, hθ]
          congr 1
          rw [hlen1]
          push_cast
          omega
    · rw [dif_neg hcond]
      exact ⟨[], by simp, fun j hj => by simp at hj⟩

/-- C1. For every `OptimizationRunner.run(iterations, batch_size)` call
with a valid strategy and evaluator, the evaluation recorded at history
position `i` (0-based, counting history recorded before the call) was
performed with per-evaluation seed `base_seed + i`; those seeds are
strictly increasing, hence no seed is used twice within one run. -/
theorem C1_per_evaluation_seed {σ : Type} (S : Strategy σ) (st : σ)
    (ev : Theta → ℤ → Except PyErr EvalResult) (seed : ℤ) (pen : ℚ)
    (hist0 : List EvalResult) (iterations batchSize : ℤ)
    (R' : OptimizationRunner σ) (outHist : OptimizationHistory)
    (hrun : OptimizationRunner.run
      { strategy := some (S, st), evaluator := some ev, seed := seed,
        penaltyObjective := pen, history := hist0 } iterations batchSize
      = .ok (R', outHist)) :
    ∃ tail, R'.history = hist0 ++ tail ∧ outHist.evaluations = hist0 ++ tail ∧
      (∀ j (hj : j < tail.length),
        ∃ θ, tail.get ⟨j, hj⟩ = safeEvaluate ev pen θ (seed + hist0.length + j)) ∧
      (∀ i i' : ℕ, i < i' → seed + (i : ℤ) < seed + (i' : ℤ)) := by
  rw [OptimizationRunner.run] at hrun
  split at hrun
  · simp at hrun
  · split at hrun
    · simp at hrun
    · simp only [Except.ok.injEq, Prod.mk.injEq] at hrun
      obtain ⟨hR, hH⟩ := hrun
      obtain ⟨tail, htail, hprop⟩ := runFrom_spec S ev seed pen iterations.toNat
        batchSize.toNat (by omega) st hist0
      refine ⟨tail, ?_, ?_, hprop, ?_⟩
      · rw [← hR]
        exact htail
      · rw [← hH]
        simp only [OptimizationRunner.result]
        exact htail
      · intro i i' hii
        omega

/-- A trivial never-converged strategy over the unit state, used as a
concrete instance in witnesses. -/
def constStrategy : Strategy Unit where
  ask := fun s => (s, ⟨[("x", ParamValue.num (1/2))]⟩)
  tell := fun _ s => s
  isConverged := fun _ => false
  result := fun _ => ⟨[], none, none⟩

/-- An evaluator that always succeeds, echoing theta and seed. -/
def okEvaluator : Theta → ℤ → Except PyErr EvalResult :=
  fun θ s => .ok { theta := θ, objective := 0, seed := s }

/-- Witness for C1: a concrete two-iteration run with base seed 5. -/
theorem C1_per_evaluation_seed_witness :
    ∃ R' outHist,
      (OptimizationRunner.run
        { strategy := some (constStrategy, ()), evaluator := some okEvaluator,
          seed := 5, penaltyObjective := 10, history := [] } 2 1
        = .ok (R', outHist)) ∧
      ∃ tail, R'.history = [] ++ tail ∧ outHist.evaluations = [] ++ tail ∧
        (∀ (j : ℕ) (hj : j < tail.length),
          ∃ θ, tail.get ⟨j, hj⟩
            = safeEvaluate okEvaluator 10 θ
                (5 + (List.length ([] : List EvalResult) : ℤ) + (j : ℤ))) ∧
        (∀ i i' : ℕ, i < i' → (5 : ℤ) + (i : ℤ) < 5 + (i' : ℤ)) := by
  have hrun : OptimizationRunner.run
      { strategy := some (constStrategy, ()), evaluator := some okEvaluator,
        seed := 5, penaltyObjective := 10, history := [] } 2 1
      = .ok ({ strategy := some (constStrategy, ()), evaluator := some okEvaluator,
               seed := 5, penaltyObjective := 10,
               history := [{ theta := [("x", ParamValue.num (1/2))], objective := 0, seed := 5 },
                           { theta := [("x", ParamValue.num (1/2))], objective := 0, seed := 6 }] },
             { evaluations := [{ theta := [("x", ParamValue.num (1/2))], objective := 0, seed := 5 },
                               { theta := [("x", ParamValue.num (1/2))], objective := 0, seed := 6 }],
               best := some { theta := [("x", ParamValue.num (1/2))], objective := 0, seed := 5 },
               seed := some 5 }) := by
    rw [OptimizationRunner.run]
    norm_num
    rw [runFrom]
    norm_num [constStrategy, askBatch, tellBatch, safeEvaluate, okEvaluator]
    rw [runFrom]
    norm_num [constStrategy, askBatch, tellBatch, safeEvaluate, okEvaluator]
    rw [runFrom]
    norm_num [OptimizationRunner.result, OptimizationRunner.best, pyMinBy]
  exact ⟨_, _, hrun, C1_per_evaluation_seed constStrategy () okEvaluator 5 10 [] 2 1 _ _ hrun⟩

/-- Wrap a strategy so that its state additionally records the exact
sequence of results passed to `tell`, in order. This is an observer: the
wrapped strategy behaves identically and the log exposes what the runner
told it. -/
def loggedStrategy (S : Strategy σ) : Strategy (σ × List EvalResult) where
  ask := fun p => ((((S.ask p.1).1), p.2), (S.ask p.1).2)
  tell := fun r p => (S.tell r p.1, p.2 ++ [r])
  isConverged := fun p => S.isConverged p.1
  result := fun p => S.result p.1

theorem loggedStrategy_ask (S : Strategy σ) (p : σ × List EvalResult) :
    (loggedStrategy S).ask p = (((S.ask p.1).1, p.2), (S.ask p.1).2) := rfl

theorem loggedStrategy_tell (S : Strategy σ) (r : EvalResult) (p : σ × List EvalResult) :
    (loggedStrategy S).tell r p = (S.tell r p.1, p.2 ++ [r]) := rfl

theorem loggedStrategy_isConverged (S : Strategy σ) (p : σ × List EvalResult) :
    (loggedStrategy S).isConverged p = S.isConverged p.1 := rfl

theorem tellBatch_logged (S : Strategy σ) (ev : Theta → ℤ → Except PyErr EvalResult)
    (seed : ℤ) (pen : ℚ) (iterations : Nat) :
    ∀ (cands : List Candidate) (st : σ) (l : List EvalResult) (h : List EvalResult),
      ∃ tail,
        (tellBatch S ev seed pen iterations cands st h).2 = h ++ tail ∧
        tellBatch (loggedStrategy S) ev seed pen iterations cands (st, l) h
          = (((tellBatch S ev seed pen iterations cands st h).1, l ++ tail), h ++ tail) := by
  intro cands
  induction cands with
  | nil =>
    intro st l h
    exact ⟨[], by simp [tellBatch], by simp [tellBatch]⟩
  | cons c cs ih =>
    intro st l h
    simp only [tellBatch, loggedStrategy_tell, loggedStrategy_isConverged]
    split
    · exact ⟨[safeEvaluate ev pen c.theta (seed + h.length)], by simp, by simp⟩
    · obtain ⟨tail', h1, h2⟩ := ih (S.tell (safeEvaluate ev pen c.theta (seed + h.length)) st)
        (l ++ [safeEvaluate ev pen c.theta (seed + h.length)])
        (h ++ [safeEvaluate ev pen c.theta (seed + h.length)])
      refine ⟨safeEvaluate ev pen c.theta (seed + h.length) :: tail', ?_, ?_⟩
      · rw [h1]
        simp
      · rw [h2]
        simp

theorem askBatch_logged (S : Strategy σ) :
    ∀ (n : Nat) (st : σ) (l : List EvalResult),
      askBatch (loggedStrategy S) n (st, l)
        = (((askBatch S n st).1, l), (askBatch S n st).2) := by
  intro n
  induction n with
  | zero => intro st l; simp [askBatch]
  | succ n ih => intro st l; simp [askBatch, loggedStrategy_ask, ih]

/-- The run-loop `while` guard fails: the loop exits immediately. -/
theorem runFrom_eq_exit (S : Strategy σ) (ev : Theta → ℤ → Except PyErr EvalResult)
    (seed : ℤ) (pen : ℚ) (iterations batchSize : Nat) (hbs : 0 < batchSize)
    (st : σ) (h : List EvalResult)
    (hneg : ¬(h.length < iterations ∧ S.isConverged st = false)) :
    runFrom S ev seed pen iterations batchSize hbs st h = (st, h) := by
  rw [runFrom, dif_neg hneg]

/-- The run-loop `while` guard holds: one batch of asks and tells runs,
then the loop continues. -/
theorem runFrom_eq_step (S : Strategy σ) (ev : Theta → ℤ → Except PyErr EvalResult)
    (seed : ℤ) (pen : ℚ) (iterations batchSize : Nat) (hbs : 0 < batchSize)
    (st : σ) (h : List EvalResult)
    (hcond : h.length < iterations ∧ S.isConverged st = false) :
    runFrom S ev seed pen iterations batchSize hbs st h
      = runFrom S ev seed pen iterations batchSize hbs
          (tellBatch S ev seed pen iterations
            (askBatch S (min batchSize (iterations - h.length)) st).2
            (askBatch S (min batchSize (iterations - h.length)) st).1 h).1
          (tellBatch S ev seed pen iterations
            (askBatch S (min batchSize (iterations - h.length)) st).2
            (askBatch S (min batchSize (iterations - h.length)) st).1 h).2 := by
  rw [runFrom, dif_pos hcond]

/-- The run loop with a logged strategy: the results told to the strategy
are exactly the entries appended to the runner's history, in order. -/
theorem runFrom_logged (S : Strategy σ) (ev : Theta → ℤ → Except PyErr EvalResult)
    (seed : ℤ) (pen : ℚ) (iterations batchSize : Nat) (hbs : 0 < batchSize) :
    ∀ (st : σ) (l : List EvalResult) (h : List EvalResult),
      ∃ tail,
        (runFrom S ev seed pen iterations batchSize hbs st h).2 = h ++ tail ∧
        runFrom (loggedStrategy S) ev seed pen iterations batchSize hbs (st, l) h
          = (((runFrom S ev seed pen iterations batchSize hbs st h).1, l ++ tail),
             h ++ tail) := by
  suffices H : ∀ (m : Nat) (st : σ) (l : List EvalResult) (h : List EvalResult),
      iterations - h.length ≤ m →
      ∃ tail,
        (runFrom S ev seed pen iterations batchSize hbs st h).2 = h ++ tail ∧
        runFrom (loggedStrategy S) ev seed pen iterations batchSize hbs (st, l) h
          = (((runFrom S ev seed pen iterations batchSize hbs st h).1, l ++ tail),
             h ++ tail) by
    intro st l h
    exact H (iterations - h.length) st l h le_rfl
  intro m
  induction m with
  | zero =>
    intro st l h hle
    have hneg : ¬(h.length < iterations ∧ S.isConverged st = false) := by
      intro hc
      omega
    have hnegL : ¬(h.length < iterations ∧
        (loggedStrategy S).isConverged (st, l) = false) := by
      rw [loggedStrategy_isConverged]
      exact hneg
    rw [runFrom_eq_exit S ev seed pen iterations batchSize hbs st h hneg,
      runFrom_eq_exit (loggedStrategy S) ev seed pen iterations batchSize hbs (st, l) h hnegL]
    exact ⟨[], by simp, by simp⟩
  | succ m ih =>
    intro st l h hle
    by_cases hcond : h.length < iterations ∧ S.isConverged st = false
    · have hcondL : h.length < iterations ∧
          (loggedStrategy S).isConverged (st, l) = false := by
        rw [loggedStrategy_isConverged]
        exact hcond
      rw [runFrom_eq_step S ev seed pen iterations batchSize hbs st h hcond,
        runFrom_eq_step (loggedStrategy S) ev seed pen iterations batchSize hbs (st, l) h hcondL]
      rw [askBatch_logged]
      obtain ⟨tail1, htail1, hlog1⟩ := tellBatch_logged S ev seed pen iterations
        (askBatch S (min batchSize (iterations - h.length)) st).2
        (askBatch S (min batchSize (iterations - h.length)) st).1 l h
      have hlenask : (askBatch S (min batchSize (iterations - h.length)) st).2.length
          = min batchSize (iterations - h.length) := askBatch_length S _ st
      have hne : (askBatch S (min batchSize (iterations - h.length)) st).2 ≠ [] := by
        intro hnil
        rw [hnil] at hlenask
        simp at hlenask
        omega
      obtain ⟨c, cs, hcc⟩ := List.exists_cons_of_ne_nil hne
      have hlt : h.length <
          (tellBatch S ev seed pen iterations
            (askBatch S (min batchSize (iterations - h.length)) st).2
            (askBatch S (min batchSize (iterations - h.length)) st).1 h).2.length := by
        rw [hcc]
        exact tellBatch_length_lt S ev seed pen iterations c cs _ h
      obtain ⟨tail2, htail2, hlog2⟩ := ih
        (tellBatch S ev seed pen iterations
          (askBatch S (min batchSize (iterations - h.length)) st).2
          (askBatch S (min batchSize (iterations - h.length)) st).1 h).1
        (l ++ tail1)
        (tellBatch S ev seed pen iterations
          (askBatch S (min batchSize (iterations - h.length)) st).2
          (askBatch S (min batchSize (iterations - h.length)) st).1 h).2
        (by omega)
      refine ⟨tail1 ++ tail2, ?_, ?_⟩
      · rw [htail1] at htail2
        simp [htail1, htail2, List.append_assoc]
      · rw [htail1] at hlog2 htail2
        simp [hlog1, htail1, hlog2, htail2, List.append_assoc]
    · have hnegL : ¬(h.length < iterations ∧
          (loggedStrategy S).isConverged (st, l) = false) := by
        rw [loggedStrategy_isConverged]
        exact hcond
      rw [runFrom_eq_exit S ev seed pen iterations batchSize hbs st h hcond,
        runFrom_eq_exit (loggedStrategy S) ev seed pen iterations batchSize hbs (st, l) h hnegL]
      exact ⟨[], by simp, by simp⟩

/-- C2. For every evaluation inside `OptimizationRunner.run`, an evaluator
exception is never propagated: `run` returns normally, and the failed
evaluation is replaced by a synthetic `EvalResult` with
`objective = penalty_objective`, `metrics["penalty"] == 1.0`, and
artifacts recording the error message and type name; every entry
appended to history (penalty entries included) is also told to the
strategy, in order. -/
theorem C2_evaluation_failures_become_penalties {σ : Type} (S : Strategy σ) (st : σ)
    (ev : Theta → ℤ → Except PyErr EvalResult) (seed : ℤ) (pen : ℚ)
    (hist0 l0 : List EvalResult) (iterations batchSize : ℤ)
    (hit : 0 ≤ iterations) (hbs : 0 < batchSize) (hbsN : 0 < batchSize.toNat) :
    (∀ (θ : Theta) (s : ℤ) (exc : PyErr), ev θ s = .error exc →
      safeEvaluate ev pen θ s =
        { theta := θ, objective := pen, metrics := [("penalty", 1)],
          artifacts := [("error", exc.msg), ("error_type", exc.typeName)], seed := s }) ∧
    (∃ out, OptimizationRunner.run
        { strategy := some (S, st), evaluator := some ev, seed := seed,
          penaltyObjective := pen, history := hist0 } iterations batchSize = .ok out) ∧
    (∃ tail,
      (runFrom S ev seed pen iterations.toNat batchSize.toNat hbsN st hist0).2
        = hist0 ++ tail ∧
      runFrom (loggedStrategy S) ev seed pen iterations.toNat batchSize.toNat hbsN
          (st, l0) hist0
        = (((runFrom S ev seed pen iterations.toNat batchSize.toNat hbsN st hist0).1,
            l0 ++ tail), hist0 ++ tail) ∧
      ∀ j (hj : j < tail.length),
        ∃ θ, tail.get ⟨j, hj⟩ = safeEvaluate ev pen θ (seed + hist0.length + j)) := by
  refine ⟨?_, ?_, ?_⟩
  · intro θ s exc hexc
    simp [safeEvaluate, hexc]
  · rw [OptimizationRunner.run]
    rw [if_neg (by omega)]
    rw [dif_neg (by omega)]
    exact ⟨_, rfl⟩
  · obtain ⟨tail, htail, hlog⟩ := runFrom_logged S ev seed pen iterations.toNat
      batchSize.toNat hbsN st l0 hist0
    obtain ⟨tail', htail', hprop'⟩ := runFrom_spec S ev seed pen iterations.toNat
      batchSize.toNat hbsN st hist0
    have heq : tail = tail' := by
      have := htail.symm.trans htail'
      exact List.append_cancel_left this
    subst heq
    exact ⟨tail, htail, hlog, hprop'⟩

/-- An evaluator that fails on every call. -/
def boomEvaluator : Theta → ℤ → Except PyErr EvalResult :=
  fun _ _ => .error ⟨"RuntimeError", "simulated failure"⟩

/-- Witness for C2: the always-failing evaluator on a one-iteration run. -/
theorem C2_evaluation_failures_become_penalties_witness :
    (∀ (θ : Theta) (s : ℤ) (exc : PyErr), boomEvaluator θ s = .error exc →
      safeEvaluate boomEvaluator 999 θ s =
        { theta := θ, objective := 999, metrics := [("penalty", 1)],
          artifacts := [("error", exc.msg), ("error_type", exc.typeName)], seed := s }) ∧
    (∃ out, OptimizationRunner.run
        { strategy := some (constStrategy, ()), evaluator := some boomEvaluator, seed := 0,
          penaltyObjective := 999, history := [] } 1 1 = .ok out) ∧
    (∃ tail,
      (runFrom constStrategy boomEvaluator 0 999 (1 : ℤ).toNat (1 : ℤ).toNat (by omega)
          () []).2 = [] ++ tail ∧
      runFrom (loggedStrategy constStrategy) boomEvaluator 0 999 (1 : ℤ).toNat (1 : ℤ).toNat
          (by omega) ((), []) []
        = (((runFrom constStrategy boomEvaluator 0 999 (1 : ℤ).toNat (1 : ℤ).toNat (by omega)
              () []).1, [] ++ tail), [] ++ tail) ∧
      ∀ j (hj : j < tail.length),
        ∃ θ, tail.get ⟨j, hj⟩
          = safeEvaluate boomEvaluator 999 θ
              (0 + (List.length ([] : List EvalResult) : ℤ) + (j : ℤ))) :=
  C2_evaluation_failures_become_penalties constStrategy () boomEvaluator 0 999 [] [] 1 1
    (by norm_num) (by norm_num) (by omega)

/-! ## Best-so-far selection (C6) -/

/-- `min(key=f)` over a non-empty list selects an element that attains the
minimum key and is the earliest such element (Python's `min` keeps the
current accumulator on ties). -/
theorem foldlMin_spec (f : α → ℚ) :
    ∀ (xs : List α) (x : α),
      ∃ (i : Nat) (hi : i < (x :: xs).length),
        (x :: xs).get ⟨i, hi⟩ = xs.foldl (fun acc y => if f y < f acc then y else acc) x ∧
        (∀ (j : Nat) (hj : j < (x :: xs).length),
          f (xs.foldl (fun acc y => if f y < f acc then y else acc) x)
            ≤ f ((x :: xs).get ⟨j, hj⟩)) ∧
        (∀ (j : Nat) (hj : j < i),
          f (xs.foldl (fun acc y => if f y < f acc then y else acc) x)
            < f ((x :: xs).get ⟨j, Nat.lt_trans hj hi⟩)) := by
  intro xs
  induction xs with
  | nil =>
    intro x
    refine ⟨0, by simp, by simp, ?_, ?_⟩
    · intro j hj
      have hj0 : j = 0 := by simpa using hj
      subst hj0
      simp
    · intro j hj
      omega
  | cons y ys ih =>
    intro x
    simp only [List.foldl]
    by_cases hxy : f y < f x
    · rw [if_pos hxy]
      obtain ⟨i', hi', hget, hmin, hearly⟩ := ih y
      refine ⟨i' + 1, by simpa using hi', ?_, ?_, ?_⟩
      · exact hget
      · intro j hj
        match j with
        | 0 =>
          have h0 : f ((x :: y :: ys).get ⟨0, hj⟩) = f x := rfl
          rw [h0]
          exact le_trans (hmin 0 (by simp)) (le_of_lt hxy)
        | j' + 1 =>
          have hj' : j' < (y :: ys).length := by simpa using hj
          exact hmin j' hj'
      · intro j hj
        match j with
        | 0 =>
          have h0 : ∀ (hh : (0 : Nat) < (x :: y :: ys).length),
              (x :: y :: ys).get ⟨0, hh⟩ = x := fun _ => rfl
          rw [h0]
          exact lt_of_le_of_lt (hmin 0 (by simp)) hxy
        | j' + 1 =>
          have hj' : j' < i' := by omega
          exact hearly j' hj'
    · rw [if_neg hxy]
      have hxle : f x ≤ f y := le_of_not_lt hxy
      obtain ⟨i', hi', hget, hmin, hearly⟩ := ih x
      refine ⟨if i' = 0 then 0 else i' + 1, ?_, ?_, ?_, ?_⟩
      · split
        · simp
        · simp only [List.length_cons] at hi' ⊢
          omega
      · split
        · rename_i hi0
          subst hi0
          exact hget
        · rename_i hi0
          obtain ⟨k, hk⟩ : ∃ k, i' = k + 1 := ⟨i' - 1, by omega⟩
          subst hk
          exact hget
      · intro j hj
        match j with
        | 0 => exact hmin 0 (by simp)
        | 1 =>
          have h1 : f ((x :: y :: ys).get ⟨1, hj⟩) = f y := rfl
          rw [h1]
          exact le_trans (hmin 0 (by simp)) hxle
        | j' + 2 =>
          have hj' : j' + 1 < (x :: ys).length := by simpa using hj
          exact hmin (j' + 1) hj'
      · intro j hj
        have hine : i' ≠ 0 := by
          intro hi0
          rw [hi0] at hj
          simp at hj
        rw [if_neg hine] at hj
        match j with
        | 0 =>
          have h0 : i' ≠ 0 := hine
          have := hearly 0 (by omega)
          exact this
        | 1 =>
          have h1 : ∀ (hh : (1 : Nat) < (x :: y :: ys).length),
              (x :: y :: ys).get ⟨1, hh⟩ = y := fun _ => rfl
          rw [h1]
          exact lt_of_lt_of_le (hearly 0 (by omega)) hxle
        | j' + 2 =>
          have hj' : j' + 1 < i' := by omega
          exact hearly (j' + 1) hj'

/-- `pyMinBy` on a non-empty list returns the earliest minimum-key element. -/
theorem pyMinBy_spec (f : α → ℚ) (l : List α) (hne : l ≠ []) :
    ∃ (b : α) (i : Nat) (hi : i < l.length),
      pyMinBy f l = some b ∧ l.get ⟨i, hi⟩ = b ∧
      (∀ (j : Nat) (hj : j < l.length), f b ≤ f (l.get ⟨j, hj⟩)) ∧
      (∀ (j : Nat) (hj : j < i), f b < f (l.get ⟨j, Nat.lt_trans hj hi⟩)) := by
  match l with
  | [] => exact absurd rfl hne
  | x :: xs =>
    obtain ⟨i, hi, hget, hmin, hearly⟩ := foldlMin_spec f xs x
    exact ⟨xs.foldl (fun acc y => if f y < f acc then y else acc) x, i, hi,
      rfl, hget, hmin, hearly⟩

/-- `ParameterSpace`: an ordered sequence of parameters. -/
structure ParameterSpace where
  parameters : List Parameter

/-- `rng.uniform(a, b)` given the next unit draw `u`: `a + (b - a) * u`
(CPython's definition). -/
def pyUniform (a b u : ℚ) : ℚ := a + (b - a) * u

/-- `RandomStrategy` state (`sim_utils/ml/strategies/random.py`): the
parameter space, seed, optional iteration cap, told history, and the
number of unit draws consumed so far. The Mersenne-Twister stream itself
is external (Python's `random.Random`); it enters as an abstract draw
stream below. -/
structure RandomStrategyState where
  parameterSpace : ParameterSpace
  seed : ℤ
  maxIterations : Option Nat := none
  history : List EvalResult := []
  draws : Nat := 0

/-- `RandomStrategy.ask`'s theta comprehension: one uniform draw per
parameter, in order; `parameter.bounds[0]` on a categorical
(`bounds is None`) parameter raises a `TypeError`. -/
def randomAskTheta (stream : Nat → ℚ) : List Parameter → Nat → Except PyErr (Theta × Nat)
  | [], k => .ok ([], k)
  | p :: ps, k =>
    match p.bounds with
    | none => .error ⟨"TypeError", "NoneType object is not subscriptable"⟩
    | some (lo, hi) =>
      match randomAskTheta stream ps (k + 1) with
      | .error e => .error e
      | .ok (rest, k') => .ok ((p.name, ParamValue.num (pyUniform lo hi (stream k))) :: rest, k')

/-- `RandomStrategy.ask`. -/
def RandomStrategy.ask (stream : Nat → ℚ) (s : RandomStrategyState) :
    Except PyErr (RandomStrategyState × Candidate) :=
  match randomAskTheta stream s.parameterSpace.parameters s.draws with
  | .error e => .error e
  | .ok (θ, k') => .ok ({ s with draws := k' }, ⟨θ⟩)

/-- `RandomStrategy.tell`: append to the told history. -/
def RandomStrategy.tell (r : EvalResult) (s : RandomStrategyState) : RandomStrategyState :=
  { s with history := s.history ++ [r] }

/-- `RandomStrategy.is_converged`: iteration cap reached. -/
def RandomStrategy.isConverged (s : RandomStrategyState) : Bool :=
  match s.maxIterations with
  | some m => decide (m ≤ s.history.length)
  | none => false

/-- `RandomStrategy.result`: history snapshot with `best` as the Python
`min` by objective. -/
def RandomStrategy.result (s : RandomStrategyState) : OptimizationHistory :=
  { evaluations := s.history
    best := pyMinBy (fun item => item.objective) s.history
    seed := some s.seed }

/-- C6. For every runner and strategy with the same non-empty recorded
history, `OptimizationRunner.best` and the `best` field of the strategy's
result snapshot are the recorded `EvalResult` with minimum objective,
ties broken by the earliest occurrence in recording order. The history is
arbitrary, so penalty entries participate in the minimum like any other
entry. -/
theorem C6_best_earliest_minimum {σ : Type} (R : OptimizationRunner σ)
    (s : RandomStrategyState) (hist : List EvalResult) (hne : hist ≠ [])
    (hR : R.history = hist) (hs : s.history = hist) :
    ∃ (b : EvalResult) (i : Nat) (hi : i < hist.length),
      R.best = some b ∧ (RandomStrategy.result s).best = some b ∧
      hist.get ⟨i, hi⟩ = b ∧
      (∀ (j : Nat) (hj : j < hist.length), b.objective ≤ (hist.get ⟨j, hj⟩).objective) ∧
      (∀ (j : Nat) (hj : j < i), b.objective < (hist.get ⟨j, Nat.lt_trans hj hi⟩).objective) := by
  obtain ⟨b, i, hi, hmin, hget, hle, hearly⟩ :=
    pyMinBy_spec (fun item : EvalResult => item.objective) hist hne
  refine ⟨b, i, hi, ?_, ?_, hget, hle, hearly⟩
  · rw [OptimizationRunner.best, hR, hmin]
  · rw [RandomStrategy.result]
    simp only [hs, hmin]

/-- Witness for C6: a three-entry history whose minimum objective 3 first
occurs at index 1. -/
theorem C6_best_earliest_minimum_witness :
    ∃ (b : EvalResult) (i : Nat)
      (hi : i < [({ theta := [], objective := 5 } : EvalResult),
                 { theta := [], objective := 3 },
                 { theta := [], objective := 3 }].length),
      (OptimizationRunner.best
        ({ strategy := none, evaluator := none, seed := 0, penaltyObjective := 1,
           history := [{ theta := [], objective := 5 }, { theta := [], objective := 3 },
                       { theta := [], objective := 3 }] } : OptimizationRunner Unit))
        = some b ∧
      (RandomStrategy.result
        { parameterSpace := ⟨[]⟩, seed := 0, maxIterations := none,
          history := [{ theta := [], objective := 5 }, { theta := [], objective := 3 },
                      { theta := [], objective := 3 }], draws := 0 }).best = some b ∧
      [({ theta := [], objective := 5 } : EvalResult), { theta := [], objective := 3 },
        { theta := [], objective := 3 }].get ⟨i, hi⟩ = b ∧
      (∀ (j : Nat) (hj : j < [({ theta := [], objective := 5 } : EvalResult),
          { theta := [], objective := 3 }, { theta := [], objective := 3 }].length),
        b.objective ≤ ([({ theta := [], objective := 5 } : EvalResult),
          { theta := [], objective := 3 },
          { theta := [], objective := 3 }].get ⟨j, hj⟩).objective) ∧
      (∀ (j : Nat) (hj : j < i),
        b.objective < ([({ theta := [], objective := 5 } : EvalResult),
          { theta := [], objective := 3 },
          { theta := [], objective := 3 }].get ⟨j, Nat.lt_trans hj hi⟩).objective) :=
  C6_best_earliest_minimum
    { strategy := none, evaluator := none, seed := 0, penaltyObjective := 1,
      history := [{ theta := [], objective := 5 }, { theta := [], objective := 3 },
                  { theta := [], objective := 3 }] }
    { parameterSpace := ⟨[]⟩, seed := 0, maxIterations := none,
      history := [{ theta := [], objective := 5 }, { theta := [], objective := 3 },
                  { theta := [], objective := 3 }], draws := 0 }
    [{ theta := [], objective := 5 }, { theta := [], objective := 3 },
     { theta := [], objective := 3 }]
    (by simp) rfl rfl

/-! ## Grid sweep sampling (`research_utils/harness/sweep.py`) -/

/-- `_stable_parameter_names`: `sorted(parameters.keys())`. A Python
mapping is modelled as an association list (its iteration order); sorting
is lexicographic on strings. -/
def stableParameterNames (parameters : List (String × List ℚ)) : List String :=
  (parameters.map Prod.fst).mergeSort (fun a b => decide (a ≤ b))

/-- `itertools.product`: Cartesian product with the last factor varying
fastest. -/
def listProduct : List (List ℚ) → List (List ℚ)
  | [] => [[]]
  | vs :: rest => vs.flatMap (fun x => (listProduct rest).map (fun row => x :: row))

/-- `_sample_grid`: values per sorted name, Cartesian product, one point
(name-value pairs in sorted-name order) per product row. `float(v)` is
the identity here. -/
def sampleGrid (parameters : List (String × List ℚ)) : List (List (String × ℚ)) :=
  let names := stableParameterNames parameters
  let values := names.map (fun n => ((parameters.lookup n).getD []))
  (listProduct values).map (fun row => names.zip row)

/-- Association-list lookup is invariant under permutation when keys are
unique. -/
theorem lookup_eq_of_perm (l1 l2 : List (String × List ℚ)) (hperm : l1.Perm l2)
    (hnd : (l1.map Prod.fst).Nodup) (k : String) : l1.lookup k = l2.lookup k := by
  induction hperm with
  | nil => rfl
  | cons x p ih =>
    simp only [List.map_cons, List.nodup_cons] at hnd
    simp only [List.lookup]
    rw [ih hnd.2]
  | swap x y l =>
    simp only [List.map_cons, List.nodup_cons, List.mem_cons] at hnd
    have hxy : y.1 ≠ x.1 := fun he => hnd.1 (Or.inl he)
    simp only [List.lookup]
    by_cases hk1 : (k == x.1) = true
    · by_cases hk2 : (k == y.1) = true
      · have e1 : k = x.1 := by simpa using hk1
        have e2 : k = y.1 := by simpa using hk2
        exact absurd (e2.symm.trans e1) hxy
      · simp [hk1, hk2]
    · by_cases hk2 : (k == y.1) = true
      · simp [hk1, hk2]
      · simp [hk1, hk2]
  | trans p1 p2 ih1 ih2 =>
    exact (ih1 hnd).trans (ih2 ((p1.map Prod.fst).nodup_iff.mp hnd))

/-- C9. Grid sweep sampling returns the full Cartesian product with
parameter names iterated in sorted order; the output is independent of the
input mapping's iteration order, and in particular parameters
`{"a": [0, 1], "b": [0, 1]}` yield exactly the four points
`{a:0,b:0}, {a:0,b:1}, {a:1,b:0}, {a:1,b:1}` in that order. -/
theorem C9_grid_cartesian_product_sorted :
    (sampleGrid [("a", [0, 1]), ("b", [0, 1])]
      = [[("a", 0), ("b", 0)], [("a", 0), ("b", 1)],
         [("a", 1), ("b", 0)], [("a", 1), ("b", 1)]]) ∧
    (∀ (p1 p2 : List (String × List ℚ)), p1.Perm p2 → (p1.map Prod.fst).Nodup →
      sampleGrid p1 = sampleGrid p2) := by
  constructor
  · have hsorted : List.Sorted (· ≤ ·) ["a", "b"] := by
      simp [List.Sorted, List.pairwise_cons]
      decide
    have hnames : stableParameterNames [("a", [0, 1]), ("b", [0, 1])] = ["a", "b"] := by
      rw [stableParameterNames]
      simp only [List.map]
      exact List.mergeSort_eq_self hsorted
    rw [sampleGrid]
    rw [hnames]
    rfl
  · intro p1 p2 hperm hnd
    have hnames : stableParameterNames p1 = stableParameterNames p2 := by
      have hp : (p1.map Prod.fst).Perm (p2.map Prod.fst) := hperm.map _
      exact List.eq_of_perm_of_sorted
        (((p1.map Prod.fst).mergeSort_perm _).trans
          (hp.trans ((p2.map Prod.fst).mergeSort_perm _).symm))
        (List.sorted_mergeSort' (p1.map Prod.fst))
        (List.sorted_mergeSort' (p2.map Prod.fst))
    have hlookup : ∀ k, p1.lookup k = p2.lookup k :=
      lookup_eq_of_perm p1 p2 hperm hnd
    rw [sampleGrid, sampleGrid, hnames]
    have hvals : (stableParameterNames p2).map (fun n => ((p1.lookup n).getD []))
        = (stableParameterNames p2).map (fun n => ((p2.lookup n).getD [])) := by
      apply List.map_congr_left
      intro n _
      rw [hlookup n]
    rw [hvals]

/-! ## SobolStrategy (`sim_utils/ml/strategies/sobol.py`) -/

/-- `SobolStrategy` state. The scipy `qmc.Sobol` engine is an external
collaborator; it is modelled by the count of points drawn, with the
engine's unit-hypercube output rows supplied by an abstract stream. -/
structure SobolStrategyState where
  parameterSpace : ParameterSpace
  seed : ℤ
  maxIterations : Option Nat := none
  history : List EvalResult := []
  engineDraws : Nat := 0

/-- `SobolStrategy.__post_init__`: raises iff scipy (`qmc`) is
unavailable, then constructs the engine from the parameter count and
seed. It inspects no parameter's bounds or choices. -/
def SobolStrategy.postInit (scipyAvailable : Bool) (ps : ParameterSpace) (seed : ℤ)
    (maxIterations : Option Nat) : Except PyErr SobolStrategyState :=
  if !scipyAvailable then
    .error ⟨"RuntimeError", "SobolStrategy requires scipy. Install sim-utils[ml] with scipy."⟩
  else
    .ok { parameterSpace := ps, seed := seed, maxIterations := maxIterations }

/-- The loop body of `SobolStrategy.ask`:
`lower, upper = parameter.bounds` raises a `TypeError` when `bounds` is
`None` (categorical parameter); otherwise the unit sample coordinate is
affinely mapped into the bounds. -/
def sobolAskTheta (sample : Nat → ℚ) : List Parameter → Nat → Except PyErr Theta
  | [], _ => .ok []
  | p :: ps, index =>
    match p.bounds with
    | none => .error ⟨"TypeError", "cannot unpack non-iterable NoneType object"⟩
    | some (lower, upper) =>
      match sobolAskTheta sample ps (index + 1) with
      | .error e => .error e
      | .ok rest =>
        .ok ((p.name, ParamValue.num (lower + (upper - lower) * sample index)) :: rest)

/-- `SobolStrategy.ask`: draw one engine row, then build theta. -/
def SobolStrategy.ask (row : Nat → Nat → ℚ) (s : SobolStrategyState) :
    Except PyErr (SobolStrategyState × Candidate) :=
  match sobolAskTheta (row s.engineDraws) s.parameterSpace.parameters 0 with
  | .error e => .error e
  | .ok θ => .ok ({ s with engineDraws := s.engineDraws + 1 }, ⟨θ⟩)

/-- Counterexample to C5: constructing a `SobolStrategy` over a space
whose only parameter is categorical (choices, no bounds) succeeds when
scipy is available — construction does not fail. -/
theorem C5_counterexample_construction_succeeds :
    ∃ s, SobolStrategy.postInit true
      ⟨[{ name := "lens", choices := some [.str "convex", .str "concave"] }]⟩ 0 none
      = .ok s :=
  ⟨_, rfl⟩

theorem sobolAskTheta_fails_on_unbounded (sample : Nat → ℚ) :
    ∀ (ps : List Parameter) (index : Nat), (∃ p ∈ ps, p.bounds = none) →
      ∃ e, sobolAskTheta sample ps index = .error e ∧ e.typeName = "TypeError" := by
  intro ps
  induction ps with
  | nil =>
    intro index hnone
    obtain ⟨p, hp, _⟩ := hnone
    simp at hp
  | cons q qs ih =>
    intro index hnone
    match hq : q.bounds with
    | none => exact ⟨⟨"TypeError", "cannot unpack non-iterable NoneType object"⟩,
        by simp [sobolAskTheta, hq], rfl⟩
    | some bnds =>
      obtain ⟨p, hp, hpb⟩ := hnone
      have hpqs : p ∈ qs := by
        rcases List.mem_cons.mp hp with hpq | hpqs
        · rw [hpq] at hpb
          rw [hpb] at hq
          cases hq
        · exact hpqs
      obtain ⟨e, he, het⟩ := ih (index + 1) ⟨p, hpqs, hpb⟩
      refine ⟨e, ?_, het⟩
      obtain ⟨lower, upper⟩ := bnds
      simp [sobolAskTheta, hq, he]

/-- C5 amended. Construction of a `SobolStrategy` does not inspect the
parameters: with scipy available it succeeds even over a categorical
(choices-based, unbounded) parameter, and it fails only when scipy is
unavailable. The categorical failure instead surfaces at the first
`ask()`, which raises a `TypeError` while unpacking the categorical
parameter's absent bounds. -/
theorem C5_sobol_categorical_fails_at_ask_not_construction
    (ps : ParameterSpace) (seed : ℤ) (mi : Option Nat) :
    (∃ s, SobolStrategy.postInit true ps seed mi = .ok s ∧
      s.parameterSpace = ps ∧ s.history = [] ∧ s.engineDraws = 0) ∧
    (∃ e, SobolStrategy.postInit false ps seed mi = .error e ∧
      e.typeName = "RuntimeError") ∧
    (∀ (row : Nat → Nat → ℚ) (s : SobolStrategyState), s.parameterSpace = ps →
      (∃ p ∈ ps.parameters, p.bounds = none) →
      ∃ e, SobolStrategy.ask row s = .error e ∧ e.typeName = "TypeError") := by
  refine ⟨⟨_, rfl, rfl, rfl, rfl⟩, ⟨_, rfl, rfl⟩, ?_⟩
  intro row s hsp hnone
  obtain ⟨e, he, het⟩ := sobolAskTheta_fails_on_unbounded (row s.engineDraws)
    ps.parameters 0 hnone
  rw [← hsp] at he
  exact ⟨e, by simp [SobolStrategy.ask, he], het⟩

/-- Witness for the amended C5 at the concrete categorical space. -/
theorem C5_sobol_categorical_fails_at_ask_witness :
    (∃ s, SobolStrategy.postInit true
        ⟨[{ name := "lens", choices := some [.str "convex", .str "concave"] }]⟩ 0 none
        = .ok s ∧
      s.parameterSpace
        = ⟨[{ name := "lens", choices := some [.str "convex", .str "concave"] }]⟩ ∧
      s.history = [] ∧ s.engineDraws = 0) ∧
    (∃ e, SobolStrategy.postInit false
        ⟨[{ name := "lens", choices := some [.str "convex", .str "concave"] }]⟩ 0 none
        = .error e ∧ e.typeName = "RuntimeError") ∧
    (∀ (row : Nat → Nat → ℚ) (s : SobolStrategyState),
      s.parameterSpace
        = ⟨[{ name := "lens", choices := some [.str "convex", .str "concave"] }]⟩ →
      (∃ p ∈ ({ parameters :=
          [{ name := "lens",
             choices := some [.str "convex", .str "concave"] }] } : ParameterSpace).parameters,
        p.bounds = none) →
      ∃ e, SobolStrategy.ask row s = .error e ∧ e.typeName = "TypeError") :=
  C5_sobol_categorical_fails_at_ask_not_construction
    ⟨[{ name := "lens", choices := some [.str "convex", .str "concave"] }]⟩ 0 none

/-! ## Strategy composition (`sim_utils/ml/strategies/composition.py`) -/

/-- A sub-strategy instance held by a composition strategy: an
implementation of the ask/tell contract together with its current
internal state, with the state type abstracted away. -/
structure PackedStrategy : Type 1 where
  σ : Type
  impl : Strategy σ
  state : σ

/-- Delegate `ask` to a packed sub-strategy (its internal state advances
in place). -/
def PackedStrategy.ask (p : PackedStrategy) : PackedStrategy × Candidate :=
  (⟨p.σ, p.impl, (p.impl.ask p.state).1⟩, (p.impl.ask p.state).2)

/-- Delegate `tell`. -/
def PackedStrategy.tell (r : EvalResult) (p : PackedStrategy) : PackedStrategy :=
  ⟨p.σ, p.impl, p.impl.tell r p.state⟩

/-- Delegate `is_converged`. -/
def PackedStrategy.isConverged (p : PackedStrategy) : Bool :=
  p.impl.isConverged p.state

/-- Delegate `result`. -/
def PackedStrategy.result (p : PackedStrategy) : OptimizationHistory :=
  p.impl.result p.state

/-- `StagedStrategy` state: ordered stages, optional per-stage caps, own
told history, current stage index. -/
structure StagedStrategy : Type 1 where
  stages : List PackedStrategy
  stageMaxIterations : Option (List ℤ) := none
  history : List EvalResult := []
  currentStageIndex : Nat := 0

/-- `StagedStrategy.__post_init__`: at least one stage; cap list length
must match the stage count. -/
def StagedStrategy.postInit (s : StagedStrategy) : Except PyErr Unit :=
  if s.stages.length = 0 then
    .error ⟨"ValueError", "StagedStrategy requires at least one stage"⟩
  else
    match s.stageMaxIterations with
    | some caps =>
      if caps.length ≠ s.stages.length then
        .error ⟨"ValueError", "stage_max_iterations must match number of stages"⟩
      else .ok ()
    | none => .ok ()

/-- `StagedStrategy._stage_complete`: converged, or (when caps are
configured) the stage's told-count has reached its cap; a negative cap is
a `ValueError`. -/
def StagedStrategy.stageComplete (s : StagedStrategy) (stageIndex : Nat)
    (stage : PackedStrategy) : Except PyErr Bool :=
  if stage.isConverged then .ok true
  else
    match s.stageMaxIterations with
    | none => .ok false
    | some caps =>
      match caps.get? stageIndex with
      | none => .error ⟨"IndexError", "list index out of range"⟩
      | some maxIterations =>
        if maxIterations < 0 then
          .error ⟨"ValueError", "stage_max_iterations values must be >= 0"⟩
        else .ok (decide ((stage.result.evaluations.length : ℤ) ≥ maxIterations))

/-- `StagedStrategy._advance_if_needed`: while not on the final stage and
the current stage is complete, move to the next stage. -/
def StagedStrategy.advanceIfNeeded (s : StagedStrategy) :
    Except PyErr StagedStrategy :=
  if _h : s.currentStageIndex < s.stages.length - 1 then
    match s.stages.get? s.currentStageIndex with
    | none => .error ⟨"IndexError", "list index out of range"⟩
    | some stage =>
      match s.stageComplete s.currentStageIndex stage with
      | .error e => .error e
      | .ok true =>
        StagedStrategy.advanceIfNeeded
          { s with currentStageIndex := s.currentStageIndex + 1 }
      | .ok false => .ok s
  else .ok s
termination_by s.stages.length - 1 - s.currentStageIndex

/-- The delegation part of `StagedStrategy.ask` (after advancement). -/
def StagedStrategy.askCurrent (s : StagedStrategy) :
    Except PyErr (StagedStrategy × Candidate) :=
  match s.stages.get? s.currentStageIndex with
  | none => .error ⟨"IndexError", "list index out of range"⟩
  | some stage =>
    .ok ({ s with stages := s.stages.set s.currentStageIndex stage.ask.1 },
      stage.ask.2)

/-- `StagedStrategy.ask`: advancement is checked before delegating. -/
def StagedStrategy.ask (s : StagedStrategy) :
    Except PyErr (StagedStrategy × Candidate) :=
  Except.bind s.advanceIfNeeded StagedStrategy.askCurrent

/-- The record part of `StagedStrategy.tell` (before advancement):
delegate to the current stage and append to the composite history. -/
def StagedStrategy.tellRecord (r : EvalResult) (s : StagedStrategy) :
    Except PyErr StagedStrategy :=
  match s.stages.get? s.currentStageIndex with
  | none => .error ⟨"IndexError", "list index out of range"⟩
  | some stage =>
    let newStages := s.stages.set s.currentStageIndex (stage.tell r)
    .ok { s with stages := newStages, history := s.history ++ [r] }

/-- `StagedStrategy.tell`: advancement is checked after recording. -/
def StagedStrategy.tell (r : EvalResult) (s : StagedStrategy) :
    Except PyErr StagedStrategy :=
  Except.bind (StagedStrategy.tellRecord r s) StagedStrategy.advanceIfNeeded

/-- `StagedStrategy.is_converged`: on the final stage and that stage is
converged. -/
def StagedStrategy.isConverged (s : StagedStrategy) : Bool :=
  decide (s.stages.length - 1 ≤ s.currentStageIndex) &&
    (match s.stages.get? s.currentStageIndex with
     | some stage => stage.isConverged
     | none => false)

/-- `StagedStrategy.result`. -/
def StagedStrategy.result (s : StagedStrategy) : OptimizationHistory :=
  { evaluations := s.history
    best := pyMinBy (fun item => item.objective) s.history
    seed := none }

/-- `PortfolioStrategy` state: sub-strategies, own history, round-robin
cursor, and the FIFO queue of owner indices for outstanding asks. -/
structure PortfolioStrategy : Type 1 where
  strategies : List PackedStrategy
  history : List EvalResult := []
  nextStrategyIndex : Nat := 0
  pendingOwnerIndices : List Nat := []

/-- `PortfolioStrategy.__post_init__`. -/
def PortfolioStrategy.postInit (p : PortfolioStrategy) : Except PyErr Unit :=
  if p.strategies.length = 0 then
    .error ⟨"ValueError", "PortfolioStrategy requires at least one strategy"⟩
  else .ok ()

/-- The `for _ in range(len(self.strategies))` loop of
`PortfolioStrategy.ask`: advance the round-robin cursor, skip converged
sub-strategies, record the owner of the new outstanding ask in FIFO
order, and delegate; error once every sub-strategy was seen converged. -/
def PortfolioStrategy.askLoop (p : PortfolioStrategy) :
    Nat → Except PyErr (PortfolioStrategy × Candidate)
  | 0 => .error ⟨"RuntimeError", "all portfolio strategies are converged"⟩
  | n + 1 =>
    match p.strategies.get? p.nextStrategyIndex with
    | none => .error ⟨"IndexError", "list index out of range"⟩
    | some strategy =>
      let ownerIndex := p.nextStrategyIndex
      let p1 : PortfolioStrategy :=
        { p with nextStrategyIndex := (ownerIndex + 1) % p.strategies.length }
      if strategy.isConverged then p1.askLoop n
      else
        let newStrategies := p1.strategies.set ownerIndex strategy.ask.1
        let newPending := p1.pendingOwnerIndices ++ [ownerIndex]
        .ok ({ p1 with strategies := newStrategies, pendingOwnerIndices := newPending },
          strategy.ask.2)

/-- `PortfolioStrategy.ask`. -/
def PortfolioStrategy.ask (p : PortfolioStrategy) :
    Except PyErr (PortfolioStrategy × Candidate) :=
  p.askLoop p.strategies.length

/-- `PortfolioStrategy.tell`: error with no outstanding ask, otherwise pop
the oldest owner index and route the result to that sub-strategy. -/
def PortfolioStrategy.tell (r : EvalResult) (p : PortfolioStrategy) :
    Except PyErr PortfolioStrategy :=
  match p.pendingOwnerIndices with
  | [] => .error ⟨"RuntimeError", "PortfolioStrategy.tell called before ask"⟩
  | owner :: rest =>
    match p.strategies.get? owner with
    | none => .error ⟨"IndexError", "list index out of range"⟩
    | some strategy =>
      let newStrategies := p.strategies.set owner (strategy.tell r)
      .ok { p with
        strategies := newStrategies
        pendingOwnerIndices := rest
        history := p.history ++ [r] }

/-- `PortfolioStrategy.is_converged`: all sub-strategies converged. -/
def PortfolioStrategy.isConverged (p : PortfolioStrategy) : Bool :=
  p.strategies.all (fun strategy => strategy.isConverged)

/-- `PortfolioStrategy.result`. -/
def PortfolioStrategy.result (p : PortfolioStrategy) : OptimizationHistory :=
  { evaluations := p.history
    best := pyMinBy (fun item => item.objective) p.history
    seed := none }

/-- A successful pass of the `PortfolioStrategy.ask` loop picks one
non-converged sub-strategy, appends its index at the end of the FIFO
owner queue, and delegates the ask to it. -/
theorem askLoop_spec : ∀ (n : Nat) (p p' : PortfolioStrategy) (c : Candidate),
    p.askLoop n = .ok (p', c) →
    ∃ ownerIndex strategy, p.strategies.get? ownerIndex = some strategy ∧
      strategy.isConverged = false ∧
      p'.pendingOwnerIndices = p.pendingOwnerIndices ++ [ownerIndex] ∧
      p'.strategies = p.strategies.set ownerIndex strategy.ask.1 ∧
      c = strategy.ask.2 ∧ p'.history = p.history := by
  intro n
  induction n with
  | zero =>
    intro p p' c h
    simp [PortfolioStrategy.askLoop] at h
  | succ n ih =>
    intro p p' c h
    rw [PortfolioStrategy.askLoop] at h
    match hg : p.strategies.get? p.nextStrategyIndex with
    | none =>
      rw [hg] at h
      simp at h
    | some strategy =>
      simp only [hg] at h
      by_cases hconv : strategy.isConverged
      · rw [if_pos hconv] at h
        obtain ⟨ownerIndex, strat, h1, h2, h3, h4, h5, h6⟩ := ih _ p' c h
        exact ⟨ownerIndex, strat, h1, h2, h3, h4, h5, h6⟩
      · rw [if_neg hconv] at h
        simp only [Except.ok.injEq, Prod.mk.injEq] at h
        obtain ⟨hp', hc⟩ := h
        refine ⟨p.nextStrategyIndex, strategy, hg, by simpa using hconv, ?_, ?_, hc.symm, ?_⟩
        · rw [← hp']
        · rw [← hp']
        · rw [← hp']

/-- C8. `PortfolioStrategy.tell` raises a `RuntimeError` when there is no
outstanding ask; otherwise it routes the result to the sub-strategy that
produced the oldest outstanding ask (the head of the FIFO owner queue),
popping it; and `ask` appends its chosen owner index at the tail of the
queue — so routing is FIFO-correct even when several asks are
outstanding before any tell. -/
theorem C8_portfolio_tell_fifo_routing :
    (∀ (p : PortfolioStrategy) (r : EvalResult), p.pendingOwnerIndices = [] →
      PortfolioStrategy.tell r p
        = .error ⟨"RuntimeError", "PortfolioStrategy.tell called before ask"⟩) ∧
    (∀ (p : PortfolioStrategy) (r : EvalResult) (owner : Nat) (rest : List Nat)
      (strategy : PackedStrategy),
      p.pendingOwnerIndices = owner :: rest → p.strategies.get? owner = some strategy →
      PortfolioStrategy.tell r p
        = .ok { p with
            strategies := p.strategies.set owner (strategy.tell r)
            pendingOwnerIndices := rest
            history := p.history ++ [r] }) ∧
    (∀ (p p' : PortfolioStrategy) (c : Candidate), p.ask = .ok (p', c) →
      ∃ ownerIndex strategy, p.strategies.get? ownerIndex = some strategy ∧
        strategy.isConverged = false ∧
        p'.pendingOwnerIndices = p.pendingOwnerIndices ++ [ownerIndex] ∧
        p'.strategies = p.strategies.set ownerIndex strategy.ask.1 ∧
        c = strategy.ask.2 ∧ p'.history = p.history) := by
  refine ⟨?_, ?_, ?_⟩
  · intro p r h
    rw [PortfolioStrategy.tell, h]
  · intro p r owner rest strategy hpend hget
    have hget2 : p.strategies[owner]? = some strategy := by
      rw [← List.get?_eq_getElem?]
      exact hget
    simp [PortfolioStrategy.tell, hpend, hget2]
  · intro p p' c h
    exact askLoop_spec p.strategies.length p p' c h

/-- A packed copy of the trivial strategy, for concrete composition
scenarios. -/
def constPacked : PackedStrategy :=
  ⟨Unit, constStrategy, ()⟩

/-- Witness for C8 on a two-member portfolio: tell-before-ask errors;
with one outstanding ask the result routes to owner 0; a concrete ask
appends its owner at the queue's tail. -/
theorem C8_portfolio_tell_fifo_routing_witness :
    (PortfolioStrategy.tell { theta := [], objective := 1 }
        { strategies := [constPacked, constPacked] }
      = .error ⟨"RuntimeError", "PortfolioStrategy.tell called before ask"⟩) ∧
    (PortfolioStrategy.tell { theta := [], objective := 1 }
        { strategies := [constPacked, constPacked], pendingOwnerIndices := [0] }
      = .ok { strategies :=
                [constPacked.tell { theta := [], objective := 1 }, constPacked]
              pendingOwnerIndices := []
              history := [{ theta := [], objective := 1 }] }) ∧
    (∃ ownerIndex strategy,
      ({ strategies := [constPacked, constPacked] } :
          PortfolioStrategy).strategies.get? ownerIndex = some strategy ∧
      strategy.isConverged = false ∧
      [(0 : Nat)] = ([] : List Nat) ++ [ownerIndex] ∧
      [constPacked.ask.1, constPacked]
        = [constPacked, constPacked].set ownerIndex strategy.ask.1 ∧
      constPacked.ask.2 = strategy.ask.2 ∧ ([] : List EvalResult) = []) := by
  refine ⟨?_, ?_, ?_⟩
  · exact C8_portfolio_tell_fifo_routing.1 { strategies := [constPacked, constPacked] }
      { theta := [], objective := 1 } rfl
  · exact C8_portfolio_tell_fifo_routing.2.1
      { strategies := [constPacked, constPacked], pendingOwnerIndices := [0] }
      { theta := [], objective := 1 } 0 [] constPacked rfl rfl
  · obtain ⟨ownerIndex, strategy, h1, h2, h3, h4, h5, h6⟩ :=
      C8_portfolio_tell_fifo_routing.2.2 { strategies := [constPacked, constPacked] }
        { strategies := [constPacked.ask.1, constPacked]
          nextStrategyIndex := 1
          pendingOwnerIndices := [0] }
        constPacked.ask.2 rfl
    exact ⟨ownerIndex, strategy, h1, h2, h3, h4, h5, h6⟩

/-- `_stage_complete` with configured caps computes "converged OR
told-count reached the cap". -/
theorem stageComplete_eq (s : StagedStrategy) (idx : Nat) (stage : PackedStrategy)
    (caps : List ℤ) (cap : ℤ) (hcaps : s.stageMaxIterations = some caps)
    (hcap : caps.get? idx = some cap) (hpos : ¬(cap < 0)) :
    s.stageComplete idx stage
      = .ok (stage.isConverged
          || decide ((stage.result.evaluations.length : ℤ) ≥ cap)) := by
  by_cases hc : stage.isConverged
  · simp [StagedStrategy.stageComplete, hc]
  · have hcap2 : caps[idx]? = some cap := by
      rw [← List.get?_eq_getElem?]
      exact hcap
    simp [StagedStrategy.stageComplete, hcaps, hcap2, hpos, hc]

/-- `_advance_if_needed` on the final stage: no movement. -/
theorem advanceIfNeeded_eq_last (s : StagedStrategy)
    (h : ¬(s.currentStageIndex < s.stages.length - 1)) :
    s.advanceIfNeeded = .ok s := by
  rw [StagedStrategy.advanceIfNeeded, dif_neg h]

/-- `_advance_if_needed` when the current stage is incomplete: no
movement. -/
theorem advanceIfNeeded_eq_stay (s : StagedStrategy)
    (h : s.currentStageIndex < s.stages.length - 1) (stage : PackedStrategy)
    (hg : s.stages.get? s.currentStageIndex = some stage)
    (hc : s.stageComplete s.currentStageIndex stage = .ok false) :
    s.advanceIfNeeded = .ok s := by
  rw [StagedStrategy.advanceIfNeeded, dif_pos h, hg]
  simp only [hc]

/-- `_advance_if_needed` when the current stage is complete: move to the
next stage and re-check. -/
theorem advanceIfNeeded_eq_advance (s : StagedStrategy)
    (h : s.currentStageIndex < s.stages.length - 1) (stage : PackedStrategy)
    (hg : s.stages.get? s.currentStageIndex = some stage)
    (hc : s.stageComplete s.currentStageIndex stage = .ok true) :
    s.advanceIfNeeded
      = StagedStrategy.advanceIfNeeded
          { s with currentStageIndex := s.currentStageIndex + 1 } := by
  rw [StagedStrategy.advanceIfNeeded, dif_pos h, hg]
  simp only [hc]

/-- One `ask()` followed by one `tell(result)` on a `StagedStrategy`. -/
def askTellCycle (r : EvalResult) (s : StagedStrategy) : Except PyErr StagedStrategy :=
  Except.bind (StagedStrategy.ask s) (fun pc => StagedStrategy.tell r pc.1)

/-- C7. For a `StagedStrategy` over two (contract-abiding, fresh,
non-converging) sub-strategies with `stage_max_iterations = (2, 2)`:
after 4 alternating ask/tell cycles the first stage has been told exactly
`[r1, r2]`, the second exactly `[r3, r4]`, and the composite history has
length 4; advancement is checked before `ask()` and after `tell()` (the
`ask`/`tell` factorisations below), and a stage is complete exactly when
it reports converged or its told-count has reached its cap. -/
theorem C7_staged_two_stage_caps {σ1 σ2 : Type} (S1 : Strategy σ1) (S2 : Strategy σ2)
    (st1 : σ1) (st2 : σ2)
    (hT1 : ∀ (r : EvalResult) (s : σ1),
      (S1.result (S1.tell r s)).evaluations = (S1.result s).evaluations ++ [r])
    (hA1 : ∀ s : σ1, (S1.result (S1.ask s).1).evaluations = (S1.result s).evaluations)
    (hC1 : ∀ s : σ1, S1.isConverged s = false)
    (hE1 : (S1.result st1).evaluations = [])
    (hT2 : ∀ (r : EvalResult) (s : σ2),
      (S2.result (S2.tell r s)).evaluations = (S2.result s).evaluations ++ [r])
    (hA2 : ∀ s : σ2, (S2.result (S2.ask s).1).evaluations = (S2.result s).evaluations)
    (hC2 : ∀ s : σ2, S2.isConverged s = false)
    (hE2 : (S2.result st2).evaluations = [])
    (r1 r2 r3 r4 : EvalResult) :
    (∃ sf : StagedStrategy,
      Except.bind (Except.bind (Except.bind
        (askTellCycle r1 ⟨[⟨σ1, S1, st1⟩, ⟨σ2, S2, st2⟩], some [2, 2], [], 0⟩)
        (askTellCycle r2)) (askTellCycle r3)) (askTellCycle r4) = .ok sf ∧
      sf.history = [r1, r2, r3, r4] ∧
      (∃ q1, sf.stages.get? 0 = some q1 ∧ q1.result.evaluations = [r1, r2]) ∧
      (∃ q2, sf.stages.get? 1 = some q2 ∧ q2.result.evaluations = [r3, r4]) ∧
      sf.currentStageIndex = 1) ∧
    (∀ s : StagedStrategy,
      StagedStrategy.ask s = Except.bind s.advanceIfNeeded StagedStrategy.askCurrent) ∧
    (∀ (r : EvalResult) (s : StagedStrategy),
      StagedStrategy.tell r s
        = Except.bind (StagedStrategy.tellRecord r s) StagedStrategy.advanceIfNeeded) ∧
    (∀ (s : StagedStrategy) (idx : Nat) (stage : PackedStrategy)
      (caps : List ℤ) (cap : ℤ),
      s.stageMaxIterations = some caps → caps.get? idx = some cap → ¬(cap < 0) →
      s.stageComplete idx stage
        = .ok (stage.isConverged
            || decide ((stage.result.evaluations.length : ℤ) ≥ cap))) := by
  refine ⟨?_, fun s => rfl, fun r s => rfl,
    fun s idx stage caps cap h1 h2 h3 => stageComplete_eq s idx stage caps cap h1 h2 h3⟩
  -- cycle 1: ask goes to stage 0 (told 0 < 2), tell r1 stays on stage 0
  have hcomp0 : (⟨[⟨σ1, S1, st1⟩, ⟨σ2, S2, st2⟩], some [2, 2], [], 0⟩ :
      StagedStrategy).stageComplete 0 ⟨σ1, S1, st1⟩ = .ok false := by
    rw [stageComplete_eq _ 0 _ [2, 2] 2 rfl rfl (by norm_num)]
    simp [PackedStrategy.isConverged, PackedStrategy.result, hC1, hE1]
  have hadv0 : (⟨[⟨σ1, S1, st1⟩, ⟨σ2, S2, st2⟩], some [2, 2], [], 0⟩ :
      StagedStrategy).advanceIfNeeded
      = .ok ⟨[⟨σ1, S1, st1⟩, ⟨σ2, S2, st2⟩], some [2, 2], [], 0⟩ :=
    advanceIfNeeded_eq_stay _ (by simp) _ rfl hcomp0
  have hcomp2 : (⟨[⟨σ1, S1, S1.tell r1 (S1.ask st1).1⟩, ⟨σ2, S2, st2⟩],
      some [2, 2], [r1], 0⟩ : StagedStrategy).stageComplete 0
        ⟨σ1, S1, S1.tell r1 (S1.ask st1).1⟩ = .ok false := by
    rw [stageComplete_eq _ 0 _ [2, 2] 2 rfl rfl (by norm_num)]
    simp [PackedStrategy.isConverged, PackedStrategy.result, hC1, hT1, hA1, hE1]
  have hadv2 : (⟨[⟨σ1, S1, S1.tell r1 (S1.ask st1).1⟩, ⟨σ2, S2, st2⟩],
      some [2, 2], [r1], 0⟩ : StagedStrategy).advanceIfNeeded
      = .ok ⟨[⟨σ1, S1, S1.tell r1 (S1.ask st1).1⟩, ⟨σ2, S2, st2⟩],
          some [2, 2], [r1], 0⟩ :=
    advanceIfNeeded_eq_stay _ (by simp) _ rfl hcomp2
  have htell1 : StagedStrategy.tell r1
      ⟨[⟨σ1, S1, (S1.ask st1).1⟩, ⟨σ2, S2, st2⟩], some [2, 2], [], 0⟩
      = .ok ⟨[⟨σ1, S1, S1.tell r1 (S1.ask st1).1⟩, ⟨σ2, S2, st2⟩],
          some [2, 2], [r1], 0⟩ := by
    rw [StagedStrategy.tell]
    exact hadv2
  have hcyc1 : askTellCycle r1
      ⟨[⟨σ1, S1, st1⟩, ⟨σ2, S2, st2⟩], some [2, 2], [], 0⟩
      = .ok ⟨[⟨σ1, S1, S1.tell r1 (S1.ask st1).1⟩, ⟨σ2, S2, st2⟩],
          some [2, 2], [r1], 0⟩ := by
    rw [askTellCycle, StagedStrategy.ask, hadv0]
    exact htell1
  -- cycle 2: ask goes to stage 0 (told 1 < 2), tell r2 completes stage 0
  have hcomp4 : (⟨[⟨σ1, S1, S1.tell r2 (S1.ask (S1.tell r1 (S1.ask st1).1)).1⟩,
      ⟨σ2, S2, st2⟩], some [2, 2], [r1, r2], 0⟩ : StagedStrategy).stageComplete 0
        ⟨σ1, S1, S1.tell r2 (S1.ask (S1.tell r1 (S1.ask st1).1)).1⟩ = .ok true := by
    rw [stageComplete_eq _ 0 _ [2, 2] 2 rfl rfl (by norm_num)]
    simp [PackedStrategy.isConverged, PackedStrategy.result, hC1, hT1, hA1, hE1]
  have hadv4 : (⟨[⟨σ1, S1, S1.tell r2 (S1.ask (S1.tell r1 (S1.ask st1).1)).1⟩,
      ⟨σ2, S2, st2⟩], some [2, 2], [r1, r2], 0⟩ : StagedStrategy).advanceIfNeeded
      = .ok ⟨[⟨σ1, S1, S1.tell r2 (S1.ask (S1.tell r1 (S1.ask st1).1)).1⟩,
          ⟨σ2, S2, st2⟩], some [2, 2], [r1, r2], 1⟩ := by
    rw [advanceIfNeeded_eq_advance
      ⟨[⟨σ1, S1, S1.tell r2 (S1.ask (S1.tell r1 (S1.ask st1).1)).1⟩, ⟨σ2, S2, st2⟩],
        some [2, 2], [r1, r2], 0⟩
      (by simp)
      ⟨σ1, S1, S1.tell r2 (S1.ask (S1.tell r1 (S1.ask st1).1)).1⟩ rfl hcomp4]
    exact advanceIfNeeded_eq_last _ (by simp)
  have htell2 : StagedStrategy.tell r2
      ⟨[⟨σ1, S1, (S1.ask (S1.tell r1 (S1.ask st1).1)).1⟩, ⟨σ2, S2, st2⟩],
        some [2, 2], [r1], 0⟩
      = .ok ⟨[⟨σ1, S1, S1.tell r2 (S1.ask (S1.tell r1 (S1.ask st1).1)).1⟩,
          ⟨σ2, S2, st2⟩], some [2, 2], [r1, r2], 1⟩ := by
    rw [StagedStrategy.tell]
    exact hadv4
  have hcyc2 : askTellCycle r2
      ⟨[⟨σ1, S1, S1.tell r1 (S1.ask st1).1⟩, ⟨σ2, S2, st2⟩], some [2, 2], [r1], 0⟩
      = .ok ⟨[⟨σ1, S1, S1.tell r2 (S1.ask (S1.tell r1 (S1.ask st1).1)).1⟩,
          ⟨σ2, S2, st2⟩], some [2, 2], [r1, r2], 1⟩ := by
    rw [askTellCycle, StagedStrategy.ask, hadv2]
    exact htell2
  -- cycle 3: ask goes to stage 1 (final stage), tell r3 stays there
  have hadv5 : ∀ (q1 : PackedStrategy) (q2 : PackedStrategy) (hist : List EvalResult),
      (⟨[q1, q2], some [2, 2], hist, 1⟩ : StagedStrategy).advanceIfNeeded
        = .ok ⟨[q1, q2], some [2, 2], hist, 1⟩ :=
    fun q1 q2 hist => advanceIfNeeded_eq_last _ (by simp)
  have htell3 : StagedStrategy.tell r3
      ⟨[⟨σ1, S1, S1.tell r2 (S1.ask (S1.tell r1 (S1.ask st1).1)).1⟩,
        ⟨σ2, S2, (S2.ask st2).1⟩], some [2, 2], [r1, r2], 1⟩
      = .ok ⟨[⟨σ1, S1, S1.tell r2 (S1.ask (S1.tell r1 (S1.ask st1).1)).1⟩,
          ⟨σ2, S2, S2.tell r3 (S2.ask st2).1⟩], some [2, 2], [r1, r2, r3], 1⟩ := by
    rw [StagedStrategy.tell]
    exact hadv5 _ _ _
  have hcyc3 : askTellCycle r3
      ⟨[⟨σ1, S1, S1.tell r2 (S1.ask (S1.tell r1 (S1.ask st1).1)).1⟩,
        ⟨σ2, S2, st2⟩], some [2, 2], [r1, r2], 1⟩
      = .ok ⟨[⟨σ1, S1, S1.tell r2 (S1.ask (S1.tell r1 (S1.ask st1).1)).1⟩,
          ⟨σ2, S2, S2.tell r3 (S2.ask st2).1⟩], some [2, 2], [r1, r2, r3], 1⟩ := by
    rw [askTellCycle, StagedStrategy.ask, hadv5]
    exact htell3
  -- cycle 4: ask goes to stage 1, tell r4 stays there
  have htell4 : StagedStrategy.tell r4
      ⟨[⟨σ1, S1, S1.tell r2 (S1.ask (S1.tell r1 (S1.ask st1).1)).1⟩,
        ⟨σ2, S2, (S2.ask (S2.tell r3 (S2.ask st2).1)).1⟩],
        some [2, 2], [r1, r2, r3], 1⟩
      = .ok ⟨[⟨σ1, S1, S1.tell r2 (S1.ask (S1.tell r1 (S1.ask st1).1)).1⟩,
          ⟨σ2, S2, S2.tell r4 (S2.ask (S2.tell r3 (S2.ask st2).1)).1⟩],
          some [2, 2], [r1, r2, r3, r4], 1⟩ := by
    rw [StagedStrategy.tell]
    exact hadv5 _ _ _
  have hcyc4 : askTellCycle r4
      ⟨[⟨σ1, S1, S1.tell r2 (S1.ask (S1.tell r1 (S1.ask st1).1)).1⟩,
        ⟨σ2, S2, S2.tell r3 (S2.ask st2).1⟩], some [2, 2], [r1, r2, r3], 1⟩
      = .ok ⟨[⟨σ1, S1, S1.tell r2 (S1.ask (S1.tell r1 (S1.ask st1).1)).1⟩,
          ⟨σ2, S2, S2.tell r4 (S2.ask (S2.tell r3 (S2.ask st2).1)).1⟩],
          some [2, 2], [r1, r2, r3, r4], 1⟩ := by
    rw [askTellCycle, StagedStrategy.ask, hadv5]
    exact htell4
  refine ⟨⟨[⟨σ1, S1, S1.tell r2 (S1.ask (S1.tell r1 (S1.ask st1).1)).1⟩,
      ⟨σ2, S2, S2.tell r4 (S2.ask (S2.tell r3 (S2.ask st2).1)).1⟩],
      some [2, 2], [r1, r2, r3, r4], 1⟩, ?_, rfl, ?_, ?_, rfl⟩
  · rw [hcyc1]
    show Except.bind (Except.bind (askTellCycle r2 _) (askTellCycle r3)) (askTellCycle r4)
      = _
    rw [hcyc2]
    show Except.bind (askTellCycle r3 _) (askTellCycle r4) = _
    rw [hcyc3]
    exact hcyc4
  · refine ⟨_, rfl, ?_⟩
    simp [PackedStrategy.result, hT1, hA1, hE1]
  · refine ⟨_, rfl, ?_⟩
    simp [PackedStrategy.result, hT2, hA2, hE2]

/-- A concrete contract-abiding strategy whose state is its told history. -/
def listStrategy : Strategy (List EvalResult) where
  ask := fun s => (s, ⟨[("x", ParamValue.num 0)]⟩)
  tell := fun r s => s ++ [r]
  isConverged := fun _ => false
  result := fun s => ⟨s, pyMinBy (fun item => item.objective) s, none⟩

/-- Witness for C7: the 4-cycle staged scenario at two fresh
`listStrategy` stages with caps `(2, 2)`. -/
theorem C7_staged_two_stage_caps_witness :
    ∃ sf : StagedStrategy,
      Except.bind (Except.bind (Except.bind
        (askTellCycle { theta := [], objective := 1 }
          ⟨[⟨List EvalResult, listStrategy, []⟩, ⟨List EvalResult, listStrategy, []⟩],
            some [2, 2], [], 0⟩)
        (askTellCycle { theta := [], objective := 2 }))
        (askTellCycle { theta := [], objective := 3 }))
        (askTellCycle { theta := [], objective := 4 }) = .ok sf ∧
      sf.history = [{ theta := [], objective := 1 }, { theta := [], objective := 2 },
        { theta := [], objective := 3 }, { theta := [], objective := 4 }] ∧
      (∃ q1, sf.stages.get? 0 = some q1 ∧
        q1.result.evaluations
          = [{ theta := [], objective := 1 }, { theta := [], objective := 2 }]) ∧
      (∃ q2, sf.stages.get? 1 = some q2 ∧
        q2.result.evaluations
          = [{ theta := [], objective := 3 }, { theta := [], objective := 4 }]) ∧
      sf.currentStageIndex = 1 :=
  (C7_staged_two_stage_caps listStrategy listStrategy [] []
    (fun _ _ => rfl) (fun _ => rfl) (fun _ => rfl) rfl
    (fun _ _ => rfl) (fun _ => rfl) (fun _ => rfl) rfl
    { theta := [], objective := 1 } { theta := [], objective := 2 }
    { theta := [], objective := 3 } { theta := [], objective := 4 }).1

/-! ## A heap model of Python objects (for `ParameterSpace.decode` and
`_set_by_path`, `phys_sims_utils/ml/param_space.py`)

Python object identity and in-place mutation are modelled explicitly: a
`Heap` maps addresses to container objects (mutable mappings and
attribute objects); immutable scalars and `None` are unboxed values.
`deepcopy` allocates fresh addresses (its memoisation of shared
substructure is not modelled — it only affects aliasing inside the copy,
not the frame properties verified here). -/

/-- A Python value: a reference to a heap container, an immutable scalar,
or `None`. -/
inductive HVal where
  | ref (addr : Nat)
  | prim (v : ParamValue)
  | none
  deriving DecidableEq, Repr

/-- A heap container: a `MutableMapping`, or an attribute object
(`struct`) whose `extensible` flag says whether `setattr` may create new
attributes (dataclasses and plain objects with `__dict__`: yes;
slots-only objects: only existing attributes). -/
inductive HObj where
  | map (entries : List (String × HVal))
  | struct (fields : List (String × HVal)) (extensible : Bool)
  deriving DecidableEq, Repr

/-- The addresses referenced directly by a value. -/
def HVal.refs : HVal → List Nat
  | .ref a => [a]
  | _ => []

/-- The named slots of a container. -/
def HObj.entries : HObj → List (String × HVal)
  | .map es => es
  | .struct fs _ => fs

/-- The addresses referenced directly by a container. -/
def HObj.refs (o : HObj) : List Nat :=
  o.entries.flatMap (fun kv => kv.2.refs)

/-- The heap: an allocation counter and an address-indexed store. -/
structure Heap where
  next : Nat
  objs : List (Nat × HObj)
  deriving DecidableEq, Repr

/-- Address lookup. -/
def Heap.find (h : Heap) (a : Nat) : Option HObj := h.objs.lookup a

/-- Allocation at a fresh address. -/
def Heap.alloc (h : Heap) (o : HObj) : Heap × Nat :=
  ({ next := h.next + 1, objs := (h.next, o) :: h.objs }, h.next)

/-- In-place mutation of the object at an address. -/
def Heap.update (h : Heap) (a : Nat) (o : HObj) : Heap :=
  { h with objs := h.objs.map (fun p => if p.1 = a then (a, o) else p) }

/-- Well-formedness: every stored address and reference is below the
allocation counter. -/
def Heap.WF (h : Heap) : Prop :=
  ∀ p ∈ h.objs, p.1 < h.next ∧ ∀ r ∈ p.2.refs, r < h.next

/-- Objects in the fresh region (addresses `≥ n`) only reference the
fresh region. -/
def Heap.freshClosed (h : Heap) (n : Nat) : Prop :=
  ∀ p ∈ h.objs, n ≤ p.1 → ∀ r ∈ p.2.refs, n ≤ r

/-- `d[k] = v` / `setattr`: overwrite in place, or append a new slot
(Python dicts keep insertion order and append new keys at the end). -/
def setEntry (es : List (String × HVal)) (k : String) (v : HVal) :
    List (String × HVal) :=
  if (es.lookup k).isSome then es.map (fun p => if p.1 = k then (k, v) else p)
  else es ++ [(k, v)]

theorem lookup_some_mem {α β : Type} [BEq α] {l : List (α × β)} {k : α} {v : β}
    (h : l.lookup k = some v) : ∃ k', (k', v) ∈ l ∧ (k == k') = true := by
  induction l with
  | nil => simp [List.lookup] at h
  | cons p rest ih =>
    rw [List.lookup] at h
    by_cases hk : (k == p.1) = true
    · rw [hk] at h
      simp at h
      exact ⟨p.1, by simp [← h], hk⟩
    · rw [Bool.of_not_eq_true hk] at h
      obtain ⟨k', hmem, hkk⟩ := ih h
      exact ⟨k', by simp [hmem], hkk⟩

theorem find_some_lt {h : Heap} {a : Nat} {o : HObj} (hwf : h.WF)
    (hfind : h.find a = some o) : a < h.next := by
  obtain ⟨k', hmem, hk⟩ := lookup_some_mem hfind
  have : a = k' := by simpa using hk
  subst this
  exact (hwf (a, o) hmem).1

theorem find_some_refs_lt {h : Heap} {a : Nat} {o : HObj} (hwf : h.WF)
    (hfind : h.find a = some o) : ∀ r ∈ o.refs, r < h.next := by
  obtain ⟨k', hmem, hk⟩ := lookup_some_mem hfind
  have : a = k' := by simpa using hk
  subst this
  exact (hwf (a, o) hmem).2

theorem find_alloc_lt (h : Heap) (o : HObj) (b : Nat) (hb : b < h.next) :
    (h.alloc o).1.find b = h.find b := by
  simp only [Heap.alloc, Heap.find, List.lookup]
  have hne : (b == h.next) = false := by
    simp only [beq_eq_false_iff_ne, ne_eq]
    omega
  rw [hne]

theorem find_alloc_self (h : Heap) (o : HObj) :
    (h.alloc o).1.find h.next = some o := by
  simp [Heap.alloc, Heap.find, List.lookup]

theorem find_update_ne (h : Heap) (a : Nat) (o : HObj) (b : Nat) (hne : b ≠ a) :
    (h.update a o).find b = h.find b := by
  simp only [Heap.update, Heap.find]
  induction h.objs with
  | nil => rfl
  | cons p rest ih =>
    simp only [List.map_cons]
    by_cases hp : p.1 = a
    · rw [if_pos hp]
      simp only [List.lookup]
      have hba : (b == a) = false := by simpa using hne
      have hbp : (b == p.1) = false := by
        rw [hp]
        exact hba
      rw [hba, hbp]
      exact ih
    · rw [if_neg hp]
      simp only [List.lookup]
      by_cases hbp : (b == p.1) = true
      · rw [hbp]
      · rw [Bool.of_not_eq_true hbp]
        exact ih

theorem lookup_map_update {l : List (Nat × HObj)} {a : Nat} (o : HObj) {o0 : HObj}
    (hfound : l.lookup a = some o0) :
    (l.map (fun p => if p.1 = a then (a, o) else p)).lookup a = some o := by
  induction l with
  | nil => simp [List.lookup] at hfound
  | cons p rest ih =>
    simp only [List.map_cons]
    by_cases hp : p.1 = a
    · rw [if_pos hp]
      simp [List.lookup]
    · rw [if_neg hp]
      simp only [List.lookup] at hfound ⊢
      have hba : (a == p.1) = false := by simp [Ne.symm hp]
      rw [hba] at hfound
      rw [hba]
      exact ih hfound

theorem find_update_self (h : Heap) (a : Nat) (o o0 : HObj)
    (hfound : h.find a = some o0) : (h.update a o).find a = some o := by
  simp only [Heap.update, Heap.find] at hfound ⊢
  exact lookup_map_update o hfound

theorem update_next (h : Heap) (a : Nat) (o : HObj) : (h.update a o).next = h.next := rfl

theorem alloc_next (h : Heap) (o : HObj) : (h.alloc o).1.next = h.next + 1 := rfl

theorem WF_update (h : Heap) (a : Nat) (o : HObj) (hwf : h.WF)
    (ho : ∀ r ∈ o.refs, r < h.next) : (h.update a o).WF := by
  intro p hp
  simp only [Heap.update, List.mem_map] at hp
  obtain ⟨q, hq, hqe⟩ := hp
  by_cases hqa : q.1 = a
  · rw [if_pos hqa] at hqe
    rw [← hqe]
    exact ⟨hqa ▸ (hwf q hq).1, ho⟩
  · rw [if_neg hqa] at hqe
    rw [← hqe]
    exact hwf q hq

theorem WF_alloc (h : Heap) (o : HObj) (hwf : h.WF)
    (ho : ∀ r ∈ o.refs, r < h.next + 1) : (h.alloc o).1.WF := by
  intro p hp
  simp only [Heap.alloc, List.mem_cons] at hp
  simp only [Heap.alloc]
  rcases hp with hp | hp
  · rw [hp]
    exact ⟨by omega, ho⟩
  · obtain ⟨h1, h2⟩ := hwf p hp
    exact ⟨by omega, fun r hr => by have := h2 r hr; omega⟩

theorem freshClosed_update (h : Heap) (n a : Nat) (o : HObj)
    (hfc : h.freshClosed n) (ho : n ≤ a → ∀ r ∈ o.refs, n ≤ r) :
    (h.update a o).freshClosed n := by
  intro p hp hge
  simp only [Heap.update, List.mem_map] at hp
  obtain ⟨q, hq, hqe⟩ := hp
  by_cases hqa : q.1 = a
  · rw [if_pos hqa] at hqe
    rw [← hqe] at hge ⊢
    exact ho hge
  · rw [if_neg hqa] at hqe
    rw [← hqe] at hge ⊢
    exact hfc q hq hge

theorem freshClosed_alloc (h : Heap) (n : Nat) (o : HObj)
    (hfc : h.freshClosed n) (ho : ∀ r ∈ o.refs, n ≤ r) :
    (h.alloc o).1.freshClosed n := by
  intro p hp hge
  simp only [Heap.alloc, List.mem_cons] at hp
  rcases hp with hp | hp
  · rw [hp]
    exact fun r hr => ho r hr
  · exact hfc p hp hge

mutual

/-- `copy.deepcopy` of one value: immutable scalars and `None` are
returned as-is; a reference is copied by deep-copying every slot of the
referenced container and allocating a fresh container. `fuel` bounds the
recursion depth (Python's recursion limit); `none` is returned when it
runs out or a reference dangles (impossible in a well-formed state). -/
def deepcopyVal : Nat → Heap → HVal → Option (Heap × HVal)
  | _, h, .prim v => some (h, .prim v)
  | _, h, .none => some (h, .none)
  | 0, _, .ref _ => Option.none
  | fuel + 1, h, .ref a =>
    match h.find a with
    | Option.none => Option.none
    | some (.map es) =>
      match deepcopyEntries fuel h es with
      | Option.none => Option.none
      | some (h1, es1) =>
        let p := h1.alloc (.map es1)
        some (p.1, .ref p.2)
    | some (.struct fs ext) =>
      match deepcopyEntries fuel h fs with
      | Option.none => Option.none
      | some (h1, fs1) =>
        let p := h1.alloc (.struct fs1 ext)
        some (p.1, .ref p.2)
termination_by fuel _ _ => (fuel, 0)

/-- Deep-copy of a container's slots, left to right. -/
def deepcopyEntries : Nat → Heap → List (String × HVal) →
    Option (Heap × List (String × HVal))
  | _, h, [] => some (h, [])
  | fuel, h, (k, v) :: rest =>
    match deepcopyVal fuel h v with
    | Option.none => Option.none
    | some (h1, v1) =>
      match deepcopyEntries fuel h1 rest with
      | Option.none => Option.none
      | some (h2, rest1) => some (h2, (k, v1) :: rest1)
termination_by fuel _ es => (fuel, es.length + 1)

end

/-- The properties of a deep copy established below: allocation only
grows, addresses below the original allocation counter are untouched,
well-formedness is preserved, the fresh region stays closed, and the
copied value's references land in the fresh region. -/
def DeepcopyValSpec (fuel : Nat) : Prop :=
  ∀ (h : Heap) (v : HVal) (h1 : Heap) (v1 : HVal),
    deepcopyVal fuel h v = some (h1, v1) →
    h.next ≤ h1.next ∧
    (∀ b, b < h.next → h1.find b = h.find b) ∧
    (h.WF → h1.WF) ∧
    (∀ n, n ≤ h.next → h.freshClosed n → h1.freshClosed n) ∧
    (∀ r ∈ v1.refs, h.next ≤ r ∧ r < h1.next) ∧
    (∀ a0, v = .ref a0 → ∃ a', v1 = .ref a' ∧ h.next ≤ a' ∧ a' < h1.next)

/-- The same properties for a slot-list copy. -/
def DeepcopyEntriesSpec (fuel : Nat) : Prop :=
  ∀ (h : Heap) (es : List (String × HVal)) (h1 : Heap) (es1 : List (String × HVal)),
    deepcopyEntries fuel h es = some (h1, es1) →
    h.next ≤ h1.next ∧
    (∀ b, b < h.next → h1.find b = h.find b) ∧
    (h.WF → h1.WF) ∧
    (∀ n, n ≤ h.next → h.freshClosed n → h1.freshClosed n) ∧
    (∀ kv ∈ es1, ∀ r ∈ kv.2.refs, h.next ≤ r ∧ r < h1.next)

theorem deepcopyEntries_spec_of_val (fuel : Nat) (hval : DeepcopyValSpec fuel) :
    DeepcopyEntriesSpec fuel := by
  intro h es
  induction es generalizing h with
  | nil =>
    intro h1 es1 heq
    simp only [deepcopyEntries, Option.some.injEq, Prod.mk.injEq] at heq
    obtain ⟨rfl, rfl⟩ := heq
    exact ⟨le_rfl, fun b _ => rfl, id, fun n _ fc => fc, by simp⟩
  | cons kv rest ih =>
    intro h1 es1 heq
    obtain ⟨k, v⟩ := kv
    rw [deepcopyEntries] at heq
    match hv : deepcopyVal fuel h v with
    | Option.none => simp only [hv] at heq; exact Option.noConfusion heq
    | some (h2, v2) =>
      simp only [hv] at heq
      match hrest : deepcopyEntries fuel h2 rest with
      | Option.none => simp only [hrest] at heq; exact Option.noConfusion heq
      | some (h3, rest3) =>
        simp only [hrest] at heq
        simp only [Option.some.injEq, Prod.mk.injEq] at heq
        obtain ⟨rfl, rfl⟩ := heq
        obtain ⟨a1, a2, a3, a4, a5, a6⟩ := hval h v h2 v2 hv
        obtain ⟨b1, b2, b3, b4, b5⟩ := ih h2 h3 rest3 hrest
        refine ⟨le_trans a1 b1, ?_, fun hwf => b3 (a3 hwf), ?_, ?_⟩
        · intro b hb
          rw [b2 b (lt_of_lt_of_le hb a1), a2 b hb]
        · intro n hn fc
          exact b4 n (le_trans hn a1) (a4 n hn fc)
        · intro kv2 hkv2 r hr
          rcases List.mem_cons.mp hkv2 with hkv2 | hkv2
          · rw [hkv2] at hr
            obtain ⟨c1, c2⟩ := a5 r hr
            exact ⟨c1, lt_of_lt_of_le c2 b1⟩
          · obtain ⟨c1, c2⟩ := b5 kv2 hkv2 r hr
            exact ⟨le_trans a1 c1, c2⟩

theorem deepcopy_spec : ∀ fuel : Nat, DeepcopyValSpec fuel ∧ DeepcopyEntriesSpec fuel := by
  intro fuel
  induction fuel with
  | zero =>
    have hval : DeepcopyValSpec 0 := by
      intro h v h1 v1 heq
      match v with
      | .prim w =>
        simp only [deepcopyVal, Option.some.injEq, Prod.mk.injEq] at heq
        obtain ⟨rfl, rfl⟩ := heq
        exact ⟨le_rfl, fun b _ => rfl, id, fun n _ fc => fc, by simp [HVal.refs], fun a0 ha => absurd ha (by simp)⟩
      | .none =>
        simp only [deepcopyVal, Option.some.injEq, Prod.mk.injEq] at heq
        obtain ⟨rfl, rfl⟩ := heq
        exact ⟨le_rfl, fun b _ => rfl, id, fun n _ fc => fc, by simp [HVal.refs], fun a0 ha => absurd ha (by simp)⟩
      | .ref a => simp [deepcopyVal] at heq
    exact ⟨hval, deepcopyEntries_spec_of_val 0 hval⟩
  | succ m ihm =>
    have hval : DeepcopyValSpec (m + 1) := by
      intro h v h1 v1 heq
      match v with
      | .prim w =>
        simp only [deepcopyVal, Option.some.injEq, Prod.mk.injEq] at heq
        obtain ⟨rfl, rfl⟩ := heq
        exact ⟨le_rfl, fun b _ => rfl, id, fun n _ fc => fc, by simp [HVal.refs], fun a0 ha => absurd ha (by simp)⟩
      | .none =>
        simp only [deepcopyVal, Option.some.injEq, Prod.mk.injEq] at heq
        obtain ⟨rfl, rfl⟩ := heq
        exact ⟨le_rfl, fun b _ => rfl, id, fun n _ fc => fc, by simp [HVal.refs], fun a0 ha => absurd ha (by simp)⟩
      | .ref a =>
        rw [deepcopyVal] at heq
        match hfind : h.find a with
        | Option.none => simp only [hfind] at heq; exact Option.noConfusion heq
        | some (.map es) =>
          simp only [hfind] at heq
          match hde : deepcopyEntries m h es with
          | Option.none => simp only [hde] at heq; exact Option.noConfusion heq
          | some (h2, es2) =>
            simp only [hde] at heq
            simp only [Option.some.injEq, Prod.mk.injEq] at heq
            obtain ⟨rfl, rfl⟩ := heq
            obtain ⟨a1, a2, a3, a4, a5⟩ := ihm.2 h es h2 es2 hde
            have hrefs : ∀ r ∈ (HObj.map es2).refs, h.next ≤ r ∧ r < h2.next := by
              intro r hr
              simp only [HObj.refs, HObj.entries, List.mem_flatMap] at hr
              obtain ⟨kv, hkv, hrkv⟩ := hr
              exact a5 kv hkv r hrkv
            refine ⟨?_, ?_, ?_, ?_, ?_, ?_⟩
            · rw [alloc_next]
              omega
            · intro b hb
              rw [find_alloc_lt h2 _ b (lt_of_lt_of_le hb a1)]
              exact a2 b hb
            · intro hwf
              exact WF_alloc h2 _ (a3 hwf)
                (fun r hr => by have := (hrefs r hr).2; omega)
            · intro n hn fc
              exact freshClosed_alloc h2 n _ (a4 n hn fc)
                (fun r hr => le_trans hn (hrefs r hr).1)
            · intro r hr
              simp only [HVal.refs, List.mem_singleton] at hr
              subst hr
              simp only [Heap.alloc]
              omega
            · intro a0 ha
              refine ⟨h2.next, rfl, ?_, ?_⟩
              · omega
              · simp only [Heap.alloc]
                omega
        | some (.struct fs ext) =>
          simp only [hfind] at heq
          match hde : deepcopyEntries m h fs with
          | Option.none => simp only [hde] at heq; exact Option.noConfusion heq
          | some (h2, fs2) =>
            simp only [hde] at heq
            simp only [Option.some.injEq, Prod.mk.injEq] at heq
            obtain ⟨rfl, rfl⟩ := heq
            obtain ⟨a1, a2, a3, a4, a5⟩ := ihm.2 h fs h2 fs2 hde
            have hrefs : ∀ r ∈ (HObj.struct fs2 ext).refs, h.next ≤ r ∧ r < h2.next := by
              intro r hr
              simp only [HObj.refs, HObj.entries, List.mem_flatMap] at hr
              obtain ⟨kv, hkv, hrkv⟩ := hr
              exact a5 kv hkv r hrkv
            refine ⟨?_, ?_, ?_, ?_, ?_, ?_⟩
            · rw [alloc_next]
              omega
            · intro b hb
              rw [find_alloc_lt h2 _ b (lt_of_lt_of_le hb a1)]
              exact a2 b hb
            · intro hwf
              exact WF_alloc h2 _ (a3 hwf)
                (fun r hr => by have := (hrefs r hr).2; omega)
            · intro n hn fc
              exact freshClosed_alloc h2 n _ (a4 n hn fc)
                (fun r hr => le_trans hn (hrefs r hr).1)
            · intro r hr
              simp only [HVal.refs, List.mem_singleton] at hr
              subst hr
              simp only [Heap.alloc]
              omega
            · intro a0 ha
              refine ⟨h2.next, rfl, ?_, ?_⟩
              · omega
              · simp only [Heap.alloc]
                omega
    exact ⟨hval, deepcopyEntries_spec_of_val (m + 1) hval⟩

/-- `_try_get_segment`: `.get(segment)` on a mapping (missing key gives
`None`), `getattr` when the attribute exists, otherwise `None` — never an
error. A stored `None` and a missing slot are indistinguishable here,
exactly as in the source. -/
def tryGetSegment (h : Heap) (v : HVal) (seg : String) : HVal :=
  match v with
  | .ref a =>
    match h.find a with
    | some (.map es) => (es.lookup seg).getD .none
    | some (.struct fs _) => (fs.lookup seg).getD .none
    | Option.none => .none
  | _ => .none

/-- Whether `_get_segment` would succeed: mapping key present, or
attribute present. -/
def canReadSeg (h : Heap) (v : HVal) (seg : String) : Bool :=
  match v with
  | .ref a =>
    match h.find a with
    | some (.map es) => (es.lookup seg).isSome
    | some (.struct fs _) => (fs.lookup seg).isSome
    | Option.none => false
  | _ => false

/-- Whether `_assign_segment` would succeed: any mapping; a dataclass or
`__dict__` object (extensible struct); a slots object only for an
existing attribute. -/
def canAssignSeg (h : Heap) (v : HVal) (seg : String) : Bool :=
  match v with
  | .ref a =>
    match h.find a with
    | some (.map _) => true
    | some (.struct fs ext) => ext || (fs.lookup seg).isSome
    | Option.none => false
  | _ => false

/-- `_assign_segment`: `obj[segment] = value` on a mapping, `setattr` on
a dataclass/`__dict__`/matching-slot object, `KeyError` otherwise. -/
def assignSegment (h : Heap) (v : HVal) (seg : String) (value : HVal) :
    Except PyErr Heap :=
  match v with
  | .ref a =>
    match h.find a with
    | some (.map es) => .ok (h.update a (.map (setEntry es seg value)))
    | some (.struct fs ext) =>
      if ext || (fs.lookup seg).isSome then
        .ok (h.update a (.struct (setEntry fs seg value) ext))
      else .error ⟨"KeyError", s!"Could not assign segment {seg}"⟩
    | Option.none => .error ⟨"KeyError", s!"Could not assign segment {seg}"⟩
  | _ => .error ⟨"KeyError", s!"Could not assign segment {seg}"⟩

/-- One iteration of the `for segment in parts[:-1]` loop of
`_set_by_path`: fetch the next container; when the segment is missing or
holds `None`, assign a fresh empty mapping there and continue into it. -/
def stepSeg (h : Heap) (cur : HVal) (seg : String) : Except PyErr (Heap × HVal) :=
  let nxt := tryGetSegment h cur seg
  if nxt = .none then
    let p := (h.alloc (.map []))
    match assignSegment p.1 cur seg (.ref p.2) with
    | .ok h2 => .ok (h2, .ref p.2)
    | .error e => .error e
  else .ok (h, nxt)

/-- The whole `for segment in parts[:-1]` loop. -/
def walkSegs (h : Heap) (cur : HVal) : List String → Except PyErr (Heap × HVal)
  | [] => .ok (h, cur)
  | seg :: rest =>
    match stepSeg h cur seg with
    | .error e => .error e
    | .ok (h1, c1) => walkSegs h1 c1 rest

/-- `_set_by_path`: empty path errors; a `None` root is replaced by a
fresh empty mapping; walk all but the last segment, then assign the last
segment on the container reached; the (possibly fresh) root is
returned. -/
def setByPath (h : Heap) (obj : HVal) (path : List String) (value : HVal) :
    Except PyErr (Heap × HVal) :=
  match path with
  | [] => .error ⟨"ValueError", "Path must not be empty"⟩
  | seg :: rest =>
    let rootPair : Heap × HVal :=
      if obj = .none then
        let p := h.alloc (.map [])
        (p.1, .ref p.2)
      else (h, obj)
    match walkSegs rootPair.1 rootPair.2 ((seg :: rest).dropLast) with
    | .error e => .error e
    | .ok (h1, cur) =>
      match assignSegment h1 cur ((seg :: rest).getLast (by simp)) value with
      | .error e => .error e
      | .ok h2 => .ok (h2, rootPair.2)

/-- `str.split(".")` over the character list: maximal runs between dots,
with empty runs kept (`"".split(".") == [""]`, `"a..b" == ["a","","b"]`). -/
def splitCharList : List Char → List (List Char)
  | [] => [[]]
  | c :: rest =>
    let r := splitCharList rest
    if c = '.' then [] :: r
    else
      match r with
      | [] => [[c]]
      | w :: ws => (c :: w) :: ws

/-- `path.split(".")`. -/
def splitPath (p : String) : List String :=
  (splitCharList p.toList).map (fun cs => String.mk cs)

/-- The `for index, parameter in enumerate(self.parameters)` loop of
`ParameterSpace.decode`: decode each encoded coordinate and write it at
the parameter's resolved path (`float(...)` is the identity here). -/
def decodeLoop : List Parameter → List ℚ → Heap → HVal → Except PyErr (Heap × HVal)
  | [], _, h, config => .ok (h, config)
  | p :: ps, e :: es, h, config =>
    match p.fromEncoded e with
    | .error err => .error err
    | .ok value =>
      match setByPath h config (splitPath p.resolvedPath) (.prim value) with
      | .error err => .error err
      | .ok (h1, config1) => decodeLoop ps es h1 config1
  | _ :: _, [], _, _ => .error ⟨"IndexError", "unreachable: length was checked"⟩

/-- `ParameterSpace.decode` over the heap model: length check, then
`config = deepcopy(base) if base is not None else {}` (the omitted-`base`
default is Python `None`, i.e. `HVal.none`), then the decode loop. -/
def ParameterSpace.decode (sp : ParameterSpace) (encoded : List ℚ) (base : HVal)
    (h : Heap) (fuel : Nat) : Except PyErr (Heap × HVal) :=
  if encoded.length ≠ sp.parameters.length then
    .error ⟨"ValueError", "Encoded vector length mismatch"⟩
  else
    match (if base = HVal.none
           then some ((h.alloc (.map [])).1, HVal.ref (h.alloc (.map [])).2)
           else deepcopyVal fuel h base) with
    | Option.none => .error ⟨"RecursionError", "maximum recursion depth exceeded"⟩
    | some (h1, config) => decodeLoop sp.parameters encoded h1 config

theorem mem_refs_setEntry {es : List (String × HVal)} {k : String} {v : HVal} {r : Nat}
    (hr : r ∈ (setEntry es k v).flatMap (fun kv => kv.2.refs)) :
    r ∈ es.flatMap (fun kv => kv.2.refs) ∨ r ∈ v.refs := by
  rw [setEntry] at hr
  split at hr
  · simp only [List.mem_flatMap, List.mem_map] at hr
    obtain ⟨kv, ⟨q, hq, hqe⟩, hrkv⟩ := hr
    by_cases hqk : q.1 = k
    · rw [if_pos hqk] at hqe
      rw [← hqe] at hrkv
      exact Or.inr hrkv
    · rw [if_neg hqk] at hqe
      rw [← hqe] at hrkv
      exact Or.inl (List.mem_flatMap.mpr ⟨q, hq, hrkv⟩)
  · rw [List.flatMap_append] at hr
    rcases List.mem_append.mp hr with hr | hr
    · exact Or.inl hr
    · simp only [List.flatMap_cons, List.flatMap_nil, List.append_nil] at hr
      exact Or.inr hr

theorem lookup_refs_subset {es : List (String × HVal)} {seg : String} {w : HVal}
    (hl : es.lookup seg = some w) :
    ∀ r ∈ w.refs, r ∈ es.flatMap (fun kv => kv.2.refs) := by
  intro r hr
  obtain ⟨k', hmem, _⟩ := lookup_some_mem hl
  exact List.mem_flatMap.mpr ⟨(k', w), hmem, hr⟩

theorem find_mem_objs {h : Heap} {a : Nat} {o : HObj} (hfind : h.find a = some o) :
    (a, o) ∈ h.objs := by
  obtain ⟨k', hmem, hk⟩ := lookup_some_mem hfind
  have : a = k' := by simpa using hk
  subst this
  exact hmem

/-- One successful loop iteration of `_set_by_path` preserves the frame
(addresses below `n` untouched), well-formedness, fresh-closure, and
keeps the walk inside the fresh region. -/
theorem stepSeg_frame (n : Nat) (h : Heap) (cur : HVal) (seg : String)
    (h1 : Heap) (c1 : HVal)
    (hok : stepSeg h cur seg = .ok (h1, c1))
    (hwf : h.WF) (hfc : h.freshClosed n) (hn : n ≤ h.next)
    (hcur : ∀ r ∈ cur.refs, n ≤ r ∧ r < h.next) :
    h.next ≤ h1.next ∧ (∀ b, b < n → h1.find b = h.find b) ∧
    h1.WF ∧ h1.freshClosed n ∧ (∀ r ∈ c1.refs, n ≤ r ∧ r < h1.next) := by
  rw [stepSeg] at hok
  by_cases hnxt : tryGetSegment h cur seg = .none
  · rw [if_pos hnxt] at hok
    match hcurv : cur with
    | .prim w => simp [assignSegment] at hok
    | .none => simp [assignSegment] at hok
    | .ref a =>
      have ha : n ≤ a ∧ a < h.next := hcur a (by simp [HVal.refs])
      have hfa : (h.alloc (.map [])).1.find a = h.find a :=
        find_alloc_lt h (.map []) a ha.2
      match hfind : h.find a with
      | Option.none =>
        simp only [assignSegment, hfa, hfind] at hok
        exact Except.noConfusion hok
      | some obj =>
        have hmemobj : (a, obj) ∈ h.objs := find_mem_objs hfind
        have hrefsobj_lt : ∀ r ∈ obj.refs, r < h.next := find_some_refs_lt hwf hfind
        have hrefsobj_ge : n ≤ a → ∀ r ∈ obj.refs, n ≤ r := fun hna => hfc (a, obj) hmemobj hna
        have hwf1 : (h.alloc (.map [])).1.WF :=
          WF_alloc h (.map []) hwf (by simp [HObj.refs, HObj.entries])
        have hfc1 : (h.alloc (.map [])).1.freshClosed n :=
          freshClosed_alloc h n (.map []) hfc (by simp [HObj.refs, HObj.entries])
        have hupd : ∀ (o' : HObj),
            (∀ r ∈ o'.refs, r < h.next + 1) → (n ≤ a → ∀ r ∈ o'.refs, n ≤ r) →
            h.next ≤ ((h.alloc (.map [])).1.update a o').next ∧
            (∀ b, b < n →
              ((h.alloc (.map [])).1.update a o').find b = h.find b) ∧
            ((h.alloc (.map [])).1.update a o').WF ∧
            ((h.alloc (.map [])).1.update a o').freshClosed n ∧
            (∀ r ∈ (HVal.ref (h.alloc (.map [])).2).refs, n ≤ r ∧
              r < ((h.alloc (.map [])).1.update a o').next) := by
          intro o' ho'lt ho'ge
          refine ⟨?_, ?_, ?_, ?_, ?_⟩
          · rw [update_next, alloc_next]
            omega
          · intro b hb
            rw [find_update_ne _ a o' b (by omega)]
            exact find_alloc_lt h (.map []) b (by omega)
          · exact WF_update _ a o' hwf1 (by
              intro r hr
              rw [alloc_next]
              exact ho'lt r hr)
          · exact freshClosed_update _ n a o' hfc1 ho'ge
          · intro r hr
            simp only [HVal.refs, List.mem_singleton] at hr
            subst hr
            rw [update_next, alloc_next]
            simp only [Heap.alloc]
            omega
        match obj with
        | .map es =>
          simp only [assignSegment, hfa, hfind] at hok
          simp only [Except.ok.injEq, Prod.mk.injEq] at hok
          obtain ⟨rfl, rfl⟩ := hok
          exact hupd (.map (setEntry es seg (.ref (h.alloc (.map [])).2)))
            (by
              intro r hr
              simp only [HObj.refs, HObj.entries] at hr
              rcases mem_refs_setEntry hr with hr | hr
              · have := hrefsobj_lt r (by simpa [HObj.refs, HObj.entries] using hr)
                omega
              · simp only [HVal.refs, List.mem_singleton] at hr
                subst hr
                simp only [Heap.alloc]
                omega)
            (by
              intro hna r hr
              simp only [HObj.refs, HObj.entries] at hr
              rcases mem_refs_setEntry hr with hr | hr
              · exact hrefsobj_ge hna r (by simpa [HObj.refs, HObj.entries] using hr)
              · simp only [HVal.refs, List.mem_singleton] at hr
                subst hr
                simp only [Heap.alloc]
                omega)
        | .struct fs ext =>
          simp only [assignSegment, hfa, hfind] at hok
          by_cases hcan : (ext || (fs.lookup seg).isSome) = true
          · rw [if_pos hcan] at hok
            simp only [Except.ok.injEq, Prod.mk.injEq] at hok
            obtain ⟨rfl, rfl⟩ := hok
            exact hupd (.struct (setEntry fs seg (.ref (h.alloc (.map [])).2)) ext)
              (by
                intro r hr
                simp only [HObj.refs, HObj.entries] at hr
                rcases mem_refs_setEntry hr with hr | hr
                · have := hrefsobj_lt r (by simpa [HObj.refs, HObj.entries] using hr)
                  omega
                · simp only [HVal.refs, List.mem_singleton] at hr
                  subst hr
                  simp only [Heap.alloc]
                  omega)
              (by
                intro hna r hr
                simp only [HObj.refs, HObj.entries] at hr
                rcases mem_refs_setEntry hr with hr | hr
                · exact hrefsobj_ge hna r (by simpa [HObj.refs, HObj.entries] using hr)
                · simp only [HVal.refs, List.mem_singleton] at hr
                  subst hr
                  simp only [Heap.alloc]
                  omega)
          · rw [if_neg hcan] at hok
            exact Except.noConfusion hok
  · rw [if_neg hnxt] at hok
    simp only [Except.ok.injEq, Prod.mk.injEq] at hok
    obtain ⟨rfl, rfl⟩ := hok
    refine ⟨le_rfl, fun b _ => rfl, hwf, hfc, ?_⟩
    intro r hr
    match hcurv : cur with
    | .prim w => simp [tryGetSegment] at hnxt
    | .none => simp [tryGetSegment] at hnxt
    | .ref a =>
      have ha : n ≤ a ∧ a < h.next := hcur a (by simp [HVal.refs])
      match hfind : h.find a with
      | Option.none =>
        rw [tryGetSegment, hfind] at hnxt
        simp at hnxt
      | some obj =>
        have hmemobj : (a, obj) ∈ h.objs := find_mem_objs hfind
        have hrefsobj_lt : ∀ r ∈ obj.refs, r < h.next := find_some_refs_lt hwf hfind
        have hrefsobj_ge : ∀ r ∈ obj.refs, n ≤ r := hfc (a, obj) hmemobj ha.1
        have hmem : r ∈ obj.refs := by
          match obj with
          | .map es =>
            simp only [tryGetSegment, hfind] at hnxt hr
            match hl : es.lookup seg with
            | Option.none => rw [hl] at hnxt; simp at hnxt
            | some w =>
              rw [hl] at hnxt hr
              simp only [Option.getD_some] at hr
              exact lookup_refs_subset hl r hr
          | .struct fs ext =>
            simp only [tryGetSegment, hfind] at hnxt hr
            match hl : fs.lookup seg with
            | Option.none => rw [hl] at hnxt; simp at hnxt
            | some w =>
              rw [hl] at hnxt hr
              simp only [Option.getD_some] at hr
              exact lookup_refs_subset hl r hr
        exact ⟨hrefsobj_ge r hmem, hrefsobj_lt r hmem⟩

/-- In a well-formed heap the fresh region is empty, hence closed. -/
theorem freshClosed_self (h : Heap) (hwf : h.WF) : h.freshClosed h.next :=
  fun p hp hge => absurd (hwf p hp).1 (by omega)

/-- The whole `parts[:-1]` walk preserves the frame. -/
theorem walkSegs_frame (n : Nat) :
    ∀ (segs : List String) (h : Heap) (cur : HVal) (h1 : Heap) (c1 : HVal),
      walkSegs h cur segs = .ok (h1, c1) →
      h.WF → h.freshClosed n → n ≤ h.next →
      (∀ r ∈ cur.refs, n ≤ r ∧ r < h.next) →
      h.next ≤ h1.next ∧ (∀ b, b < n → h1.find b = h.find b) ∧
      h1.WF ∧ h1.freshClosed n ∧ (∀ r ∈ c1.refs, n ≤ r ∧ r < h1.next) := by
  intro segs
  induction segs with
  | nil =>
    intro h cur h1 c1 hok hwf hfc hn hcur
    simp only [walkSegs, Except.ok.injEq, Prod.mk.injEq] at hok
    obtain ⟨rfl, rfl⟩ := hok
    exact ⟨le_rfl, fun b _ => rfl, hwf, hfc, hcur⟩
  | cons seg rest ih =>
    intro h cur h1 c1 hok hwf hfc hn hcur
    rw [walkSegs] at hok
    match hst : stepSeg h cur seg with
    | .error e => rw [hst] at hok; exact Except.noConfusion hok
    | .ok (h2, c2) =>
      rw [hst] at hok
      obtain ⟨a1, a2, a3, a4, a5⟩ := stepSeg_frame n h cur seg h2 c2 hst hwf hfc hn hcur
      obtain ⟨b1, b2, b3, b4, b5⟩ := ih h2 c2 h1 c1 hok a3 a4 (le_trans hn a1) a5
      exact ⟨le_trans a1 b1, fun b hb => (b2 b hb).trans (a2 b hb), b3, b4, b5⟩

/-- `_assign_segment` mutates only the target container. -/
theorem assignSegment_frame (n : Nat) (h : Heap) (cur : HVal) (seg : String)
    (value : HVal) (h1 : Heap)
    (hok : assignSegment h cur seg value = .ok h1)
    (hwf : h.WF) (hfc : h.freshClosed n) (hn : n ≤ h.next)
    (hcur : ∀ r ∈ cur.refs, n ≤ r ∧ r < h.next)
    (hval : ∀ r ∈ value.refs, n ≤ r ∧ r < h.next) :
    h1.next = h.next ∧ (∀ b, b < n → h1.find b = h.find b) ∧
    h1.WF ∧ h1.freshClosed n := by
  match cur with
  | .prim w => simp [assignSegment] at hok
  | .none => simp [assignSegment] at hok
  | .ref a =>
    have ha : n ≤ a ∧ a < h.next := hcur a (by simp [HVal.refs])
    match hfind : h.find a with
    | Option.none =>
      simp only [assignSegment, hfind] at hok
      exact Except.noConfusion hok
    | some obj =>
      have hmemobj : (a, obj) ∈ h.objs := find_mem_objs hfind
      have hrefsobj_lt : ∀ r ∈ obj.refs, r < h.next := find_some_refs_lt hwf hfind
      have hrefsobj_ge : ∀ r ∈ obj.refs, n ≤ r := hfc (a, obj) hmemobj ha.1
      have hupd : ∀ (o' : HObj),
          (∀ r ∈ o'.refs, r < h.next) → (∀ r ∈ o'.refs, n ≤ r) →
          (h.update a o').next = h.next ∧
          (∀ b, b < n → (h.update a o').find b = h.find b) ∧
          (h.update a o').WF ∧ (h.update a o').freshClosed n := by
        intro o' ho'lt ho'ge
        refine ⟨update_next h a o', ?_, WF_update h a o' hwf ho'lt,
          freshClosed_update h n a o' hfc (fun _ => ho'ge)⟩
        intro b hb
        exact find_update_ne h a o' b (by omega)
      have hsetrefs : ∀ (es : List (String × HVal)),
          (∀ r ∈ es.flatMap (fun kv => kv.2.refs), n ≤ r ∧ r < h.next) →
          ∀ r ∈ (setEntry es seg value).flatMap (fun kv => kv.2.refs),
            n ≤ r ∧ r < h.next := by
        intro es hes r hr
        rcases mem_refs_setEntry hr with hr | hr
        · exact hes r hr
        · exact hval r hr
      match obj with
      | .map es =>
        simp only [assignSegment, hfind] at hok
        simp only [Except.ok.injEq] at hok
        subst hok
        have hes : ∀ r ∈ es.flatMap (fun kv => kv.2.refs), n ≤ r ∧ r < h.next :=
          fun r hr => ⟨hrefsobj_ge r (by simpa [HObj.refs, HObj.entries] using hr),
            hrefsobj_lt r (by simpa [HObj.refs, HObj.entries] using hr)⟩
        exact hupd _ (fun r hr => ((hsetrefs es hes) r
            (by simpa [HObj.refs, HObj.entries] using hr)).2)
          (fun r hr => ((hsetrefs es hes) r
            (by simpa [HObj.refs, HObj.entries] using hr)).1)
      | .struct fs ext =>
        simp only [assignSegment, hfind] at hok
        by_cases hcan : (ext || (fs.lookup seg).isSome) = true
        · rw [if_pos hcan] at hok
          simp only [Except.ok.injEq] at hok
          subst hok
          have hes : ∀ r ∈ fs.flatMap (fun kv => kv.2.refs), n ≤ r ∧ r < h.next :=
            fun r hr => ⟨hrefsobj_ge r (by simpa [HObj.refs, HObj.entries] using hr),
              hrefsobj_lt r (by simpa [HObj.refs, HObj.entries] using hr)⟩
          exact hupd _ (fun r hr => ((hsetrefs fs hes) r
              (by simpa [HObj.refs, HObj.entries] using hr)).2)
            (fun r hr => ((hsetrefs fs hes) r
              (by simpa [HObj.refs, HObj.entries] using hr)).1)
        · rw [if_neg hcan] at hok
          exact Except.noConfusion hok

/-- `_set_by_path` returns its root unchanged (fresh when the input was
`None`), touches no address below `n`, and preserves well-formedness and
fresh-closure. -/
theorem setByPath_frame (n : Nat) (h : Heap) (obj : HVal) (path : List String)
    (value : HVal) (h1 : Heap) (root : HVal)
    (hok : setByPath h obj path value = .ok (h1, root))
    (hwf : h.WF) (hfc : h.freshClosed n) (hn : n ≤ h.next)
    (hobj : ∀ r ∈ obj.refs, n ≤ r ∧ r < h.next)
    (hval : ∀ r ∈ value.refs, n ≤ r ∧ r < h.next) :
    (obj ≠ HVal.none → root = obj) ∧ h.next ≤ h1.next ∧
    (∀ b, b < n → h1.find b = h.find b) ∧ h1.WF ∧ h1.freshClosed n ∧
    (∀ r ∈ root.refs, n ≤ r ∧ r < h1.next) := by
  match path with
  | [] => exact Except.noConfusion hok
  | seg :: rest =>
    rw [setByPath] at hok
    by_cases hnone : obj = HVal.none
    · rw [if_pos hnone] at hok
      have hwfA : (h.alloc (.map [])).1.WF :=
        WF_alloc h (.map []) hwf (by simp [HObj.refs, HObj.entries])
      have hfcA : (h.alloc (.map [])).1.freshClosed n :=
        freshClosed_alloc h n (.map []) hfc (by simp [HObj.refs, HObj.entries])
      have hrootrefs : ∀ r ∈ (HVal.ref (h.alloc (.map [])).2).refs,
          n ≤ r ∧ r < (h.alloc (.map [])).1.next := by
        intro r hr
        simp only [HVal.refs, List.mem_singleton] at hr
        subst hr
        simp only [Heap.alloc]
        omega
      match hwalk : walkSegs (h.alloc (.map [])).1 (HVal.ref (h.alloc (.map [])).2)
          ((seg :: rest).dropLast) with
      | .error e => simp only [hwalk] at hok; exact Except.noConfusion hok
      | .ok (h2, cur) =>
        simp only [hwalk] at hok
        obtain ⟨a1, a2, a3, a4, a5⟩ := walkSegs_frame n ((seg :: rest).dropLast)
          (h.alloc (.map [])).1 (HVal.ref (h.alloc (.map [])).2) h2 cur hwalk
          hwfA hfcA (by simp only [Heap.alloc]; omega) hrootrefs
        match hassign : assignSegment h2 cur ((seg :: rest).getLast (by simp)) value with
        | .error e => simp only [hassign] at hok; exact Except.noConfusion hok
        | .ok h3 =>
          simp only [hassign] at hok
          simp only [Except.ok.injEq, Prod.mk.injEq] at hok
          obtain ⟨rfl, rfl⟩ := hok
          have hvalup : ∀ r ∈ value.refs, n ≤ r ∧ r < h2.next := by
            intro r hr
            obtain ⟨c1, c2⟩ := hval r hr
            have : h.next ≤ h2.next := by
              have : (h.alloc (.map [])).1.next = h.next + 1 := rfl
              omega
            exact ⟨c1, by omega⟩
          obtain ⟨b1, b2, b3, b4⟩ := assignSegment_frame n h2 cur _ value h3 hassign
            a3 a4 (le_trans (le_trans hn (by simp only [Heap.alloc]; omega)) a1) a5 hvalup
          refine ⟨fun hc => absurd hnone hc, ?_, ?_, b3, b4, ?_⟩
          · have : (h.alloc (.map [])).1.next = h.next + 1 := rfl
            omega
          · intro b hb
            rw [b2 b hb, a2 b hb]
            exact find_alloc_lt h (.map []) b (by omega)
          · intro r hr
            obtain ⟨c1, c2⟩ := hrootrefs r hr
            have : (h.alloc (.map [])).1.next ≤ h2.next := a1
            exact ⟨c1, by omega⟩
    · rw [if_neg hnone] at hok
      match hwalk : walkSegs h obj ((seg :: rest).dropLast) with
      | .error e => simp only [hwalk] at hok; exact Except.noConfusion hok
      | .ok (h2, cur) =>
        simp only [hwalk] at hok
        obtain ⟨a1, a2, a3, a4, a5⟩ := walkSegs_frame n ((seg :: rest).dropLast)
          h obj h2 cur hwalk hwf hfc hn hobj
        match hassign : assignSegment h2 cur ((seg :: rest).getLast (by simp)) value with
        | .error e => simp only [hassign] at hok; exact Except.noConfusion hok
        | .ok h3 =>
          simp only [hassign] at hok
          simp only [Except.ok.injEq, Prod.mk.injEq] at hok
          obtain ⟨rfl, rfl⟩ := hok
          have hvalup : ∀ r ∈ value.refs, n ≤ r ∧ r < h2.next := by
            intro r hr
            obtain ⟨c1, c2⟩ := hval r hr
            exact ⟨c1, by omega⟩
          obtain ⟨b1, b2, b3, b4⟩ := assignSegment_frame n h2 cur _ value h3 hassign
            a3 a4 (le_trans hn a1) a5 hvalup
          refine ⟨fun _ => rfl, by omega, ?_, b3, b4, ?_⟩
          · intro b hb
            rw [b2 b hb, a2 b hb]
          · intro r hr
            obtain ⟨c1, c2⟩ := hobj r hr
            exact ⟨c1, by omega⟩

/-- The decode loop returns its config root unchanged and touches no
address below `n`. -/
theorem decodeLoop_frame (n : Nat) :
    ∀ (params : List Parameter) (es : List ℚ) (h : Heap) (config : HVal)
      (h1 : Heap) (r : HVal),
      decodeLoop params es h config = .ok (h1, r) →
      h.WF → h.freshClosed n → n ≤ h.next → config ≠ HVal.none →
      (∀ rr ∈ config.refs, n ≤ rr ∧ rr < h.next) →
      r = config ∧ h.next ≤ h1.next ∧ (∀ b, b < n → h1.find b = h.find b) ∧
      h1.WF ∧ h1.freshClosed n := by
  intro params
  induction params with
  | nil =>
    intro es h config h1 r hok hwf hfc hn hne hrefs
    simp only [decodeLoop, Except.ok.injEq, Prod.mk.injEq] at hok
    obtain ⟨rfl, rfl⟩ := hok
    exact ⟨rfl, le_rfl, fun b _ => rfl, hwf, hfc⟩
  | cons p ps ih =>
    intro es h config h1 r hok hwf hfc hn hne hrefs
    match es with
    | [] => exact Except.noConfusion hok
    | e :: es' =>
      rw [decodeLoop] at hok
      match hfe : p.fromEncoded e with
      | .error err => simp only [hfe] at hok; exact Except.noConfusion hok
      | .ok value =>
        simp only [hfe] at hok
        match hsp : setByPath h config (splitPath p.resolvedPath) (.prim value) with
        | .error err => simp only [hsp] at hok; exact Except.noConfusion hok
        | .ok (h2, config2) =>
          simp only [hsp] at hok
          obtain ⟨a0, a1, a2, a3, a4, _⟩ := setByPath_frame n h config
            (splitPath p.resolvedPath) (.prim value) h2 config2 hsp hwf hfc hn hrefs
            (by simp [HVal.refs])
          have hroot : config2 = config := a0 hne
          subst hroot
          obtain ⟨b0, b1, b2, b3, b4⟩ := ih es' h2 config2 h1 r hok a3 a4
            (le_trans hn a1) hne
            (fun rr hrr => ⟨(hrefs rr hrr).1, lt_of_lt_of_le (hrefs rr hrr).2 a1⟩)
          exact ⟨b0, le_trans a1 b1, fun b hb => (b2 b hb).trans (a2 b hb), b3, b4⟩

/-- C3. `ParameterSpace.decode(encoded, base)` (with matching encoded
length, which holds whenever it returns) yields a configuration that is a
freshly allocated object, never the `base` object itself, and leaves
every pre-existing heap address — in particular everything reachable from
`base` — exactly as it was; when `base` is omitted (Python `None`), the
result starts from a fresh empty mapping, and the heap below the old
allocation counter is likewise untouched. -/
theorem C3_decode_copies_base (sp : ParameterSpace) (encoded : List ℚ) (fuel : Nat)
    (h : Heap) (a : Nat) (h' : Heap) (r : HVal)
    (hwf : h.WF) (ha : a < h.next)
    (hok : sp.decode encoded (.ref a) h fuel = .ok (h', r)) :
    (∃ a', r = .ref a' ∧ h.next ≤ a') ∧ r ≠ .ref a ∧
    (∀ b, b < h.next → h'.find b = h.find b) ∧
    (∀ (h2 h2' : Heap) (r2 : HVal), h2.WF →
      sp.decode encoded HVal.none h2 fuel = .ok (h2', r2) →
      (∃ a2, r2 = .ref a2 ∧ h2.next ≤ a2) ∧
      (∀ b, b < h2.next → h2'.find b = h2.find b)) := by
  rw [ParameterSpace.decode] at hok
  split at hok
  · exact Except.noConfusion hok
  · rw [if_neg (by simp : ¬((HVal.ref a) = HVal.none))] at hok
    match hdc : deepcopyVal fuel h (.ref a) with
    | Option.none => simp only [hdc] at hok; exact Except.noConfusion hok
    | some (h1, config) =>
      simp only [hdc] at hok
      obtain ⟨d1, d2, d3, d4, d5, d6⟩ := (deepcopy_spec fuel).1 h (.ref a) h1 config hdc
      obtain ⟨a', hconfig, ha'lo, ha'hi⟩ := d6 a rfl
      subst hconfig
      obtain ⟨b0, b1, b2, b3, b4⟩ := decodeLoop_frame h.next sp.parameters encoded
        h1 (.ref a') h' r hok (d3 hwf) (d4 h.next le_rfl (freshClosed_self h hwf)) d1
        (by simp) (by
          intro rr hrr
          simp only [HVal.refs, List.mem_singleton] at hrr
          subst hrr
          exact ⟨ha'lo, ha'hi⟩)
      refine ⟨⟨a', b0, ha'lo⟩, ?_, ?_, ?_⟩
      · rw [b0]
        intro hcontra
        have : a' = a := by simpa using hcontra
        omega
      · intro b hb
        rw [b2 b hb, d2 b hb]
      · intro h2 h2' r2 hwf2 hok2
        rw [ParameterSpace.decode] at hok2
        split at hok2
        · exact Except.noConfusion hok2
        · rw [if_pos rfl] at hok2
          simp only [] at hok2
          have hwfA : (h2.alloc (.map [])).1.WF :=
            WF_alloc h2 (.map []) hwf2 (by simp [HObj.refs, HObj.entries])
          have hfcA : (h2.alloc (.map [])).1.freshClosed h2.next :=
            freshClosed_alloc h2 h2.next (.map []) (freshClosed_self h2 hwf2)
              (by simp [HObj.refs, HObj.entries])
          obtain ⟨c0, c1, c2, c3, c4⟩ := decodeLoop_frame h2.next sp.parameters encoded
            (h2.alloc (.map [])).1 (.ref (h2.alloc (.map [])).2) h2' r2 hok2 hwfA hfcA
            (by simp only [Heap.alloc]; omega) (by simp)
            (by
              intro rr hrr
              simp only [HVal.refs, List.mem_singleton] at hrr
              subst hrr
              simp only [Heap.alloc]
              omega)
          refine ⟨⟨(h2.alloc (.map [])).2, c0, by simp only [Heap.alloc]; omega⟩, ?_⟩
          intro b hb
          rw [c2 b hb]
          exact find_alloc_lt h2 (.map []) b hb

/-- Witness for C3: decoding `[1/2]` for parameter `x` over a base
mapping `{"x": 1/2}` at address 0 returns the fresh copy at address 1 and
leaves address 0 untouched. -/
theorem C3_decode_copies_base_witness :
    (∃ a', (HVal.ref 1) = HVal.ref a' ∧
      (Heap.mk 1 [(0, HObj.map [("x", HVal.prim (ParamValue.num (1/2)))])]).next ≤ a') ∧
    HVal.ref 1 ≠ HVal.ref 0 ∧
    (∀ b, b < (Heap.mk 1 [(0, HObj.map [("x", HVal.prim (ParamValue.num (1/2)))])]).next →
      (Heap.mk 2 [(1, HObj.map [("x", HVal.prim (ParamValue.num (1/2)))]),
                  (0, HObj.map [("x", HVal.prim (ParamValue.num (1/2)))])]).find b
        = (Heap.mk 1 [(0, HObj.map [("x", HVal.prim (ParamValue.num (1/2)))])]).find b) ∧
    (∀ (h2 h2' : Heap) (r2 : HVal), h2.WF →
      (ParameterSpace.mk [⟨"x", some (0, 1), none, none, none⟩]).decode
          [1/2] HVal.none h2 5 = .ok (h2', r2) →
      (∃ a2, r2 = .ref a2 ∧ h2.next ≤ a2) ∧
      (∀ b, b < h2.next → h2'.find b = h2.find b)) := by
  have hok : (ParameterSpace.mk [⟨"x", some (0, 1), none, none, none⟩]).decode
      [1/2] (.ref 0) (Heap.mk 1 [(0, HObj.map [("x", HVal.prim (ParamValue.num (1/2)))])]) 5
      = .ok (Heap.mk 2 [(1, HObj.map [("x", HVal.prim (ParamValue.num (1/2)))]),
                        (0, HObj.map [("x", HVal.prim (ParamValue.num (1/2)))])],
             HVal.ref 1) := by
    have e1 : (HVal.ref (0 : Nat) = HVal.none) = False := by simp
    have e2 : (HVal.ref (1 : Nat) = HVal.none) = False := by simp
    have e3 : ('x' = '.') = False := by decide
    rw [ParameterSpace.decode]
    norm_num [deepcopyVal, deepcopyEntries, decodeLoop, setByPath, walkSegs,
      assignSegment, splitPath, splitCharList, Parameter.fromEncoded,
      Parameter.decodedOf, Parameter.validate, Parameter.resolvedPath,
      ParamValue.asNum, setEntry, Heap.alloc, Heap.update, Heap.find,
      tryGetSegment, stepSeg, List.lookup, e1, e2, e3]
  exact C3_decode_copies_base ⟨[⟨"x", some (0, 1), none, none, none⟩]⟩ [1/2] 5
    (Heap.mk 1 [(0, HObj.map [("x", HVal.prim (ParamValue.num (1/2)))])]) 0 _ _
    (by
      intro p hp
      simp only [List.mem_singleton] at hp
      subst hp
      refine ⟨by norm_num, ?_⟩
      intro r hr
      simp [HObj.refs, HObj.entries, HVal.refs] at hr)
    (by decide) hok

theorem lookup_map_replace (es : List (String × HVal)) (k : String) (v : HVal)
    (hk : (es.lookup k).isSome = true) :
    (es.map (fun p => if p.1 = k then (k, v) else p)).lookup k = some v := by
  induction es with
  | nil => simp [List.lookup] at hk
  | cons p rest ih =>
    simp only [List.map_cons]
    by_cases hp : p.1 = k
    · rw [if_pos hp]
      simp [List.lookup]
    · rw [if_neg hp]
      simp only [List.lookup] at hk ⊢
      have hkp : (k == p.1) = false := by simp [Ne.symm hp]
      rw [hkp] at hk
      rw [hkp]
      exact ih hk

theorem lookup_append_right (es : List (String × HVal)) (k : String) (v : HVal)
    (hk : es.lookup k = Option.none) :
    (es ++ [(k, v)]).lookup k = some v := by
  induction es with
  | nil => simp [List.lookup]
  | cons p rest ih =>
    simp only [List.cons_append, List.lookup] at hk ⊢
    by_cases hkp : (k == p.1) = true
    · rw [hkp] at hk
      exact Option.noConfusion hk
    · rw [Bool.of_not_eq_true hkp] at hk ⊢
      exact ih hk

theorem lookup_setEntry_self (es : List (String × HVal)) (k : String) (v : HVal) :
    (setEntry es k v).lookup k = some v := by
  rw [setEntry]
  split
  · rename_i hk
    exact lookup_map_replace es k v hk
  · rename_i hk
    exact lookup_append_right es k v (Option.not_isSome_iff_eq_none.mp hk)

/-- A well-formed heap has nothing at its allocation counter. -/
theorem find_next_none (h : Heap) (hwf : h.WF) : h.find h.next = Option.none := by
  match hfind : h.find h.next with
  | Option.none => rfl
  | some o => exact absurd (find_some_lt hwf hfind) (by omega)

/-- C10. During `_set_by_path`'s intermediate-segment walk: a segment
that is missing, or present with value `None`, on an assignable container
is silently replaced by a freshly allocated empty mapping (no error), and
the replacement is visible on re-reading the segment; a `KeyError` is
raised only when the segment can be neither read (`_get_segment` would
fail) nor assigned (`_assign_segment` would fail) on the container. -/
theorem C10_set_by_path_intermediate_segments (h : Heap) (cur : HVal) (seg : String)
    (hwf : h.WF) :
    (tryGetSegment h cur seg = HVal.none → canAssignSeg h cur seg = true →
      ∃ h2, stepSeg h cur seg = .ok (h2, .ref h.next) ∧
        h2.find h.next = some (.map []) ∧
        tryGetSegment h2 cur seg = .ref h.next) ∧
    (∀ e, stepSeg h cur seg = .error e →
      e.typeName = "KeyError" ∧ canReadSeg h cur seg = false ∧
      canAssignSeg h cur seg = false) := by
  constructor
  · intro hnone hcan
    match cur with
    | .prim w => simp [canAssignSeg] at hcan
    | .none => simp [canAssignSeg] at hcan
    | .ref a =>
      rw [canAssignSeg] at hcan
      match hfind : h.find a with
      | Option.none => rw [hfind] at hcan; exact absurd hcan (by simp)
      | some obj =>
        rw [hfind] at hcan
        have halt : a < h.next := find_some_lt hwf hfind
        have hfa : (h.alloc (.map [])).1.find a = h.find a :=
          find_alloc_lt h (.map []) a halt
        match obj with
        | .map es =>
          refine ⟨(h.alloc (.map [])).1.update a
            (.map (setEntry es seg (.ref (h.alloc (.map [])).2))), ?_, ?_, ?_⟩
          · rw [stepSeg]
            rw [if_pos hnone]
            simp only [assignSegment, hfa, hfind]
            rfl
          · rw [find_update_ne _ a _ h.next (by omega)]
            exact find_alloc_self h (.map [])
          · have hmem : (h.alloc (.map [])).1.find a = some (.map es) := by
              rw [hfa, hfind]
            rw [tryGetSegment]
            rw [find_update_self _ a _ _ hmem]
            simp only [lookup_setEntry_self, Option.getD_some]
            rfl
        | .struct fs ext =>
          have hcan2 : (ext || (fs.lookup seg).isSome) = true := hcan
          refine ⟨(h.alloc (.map [])).1.update a
            (.struct (setEntry fs seg (.ref (h.alloc (.map [])).2)) ext), ?_, ?_, ?_⟩
          · rw [stepSeg]
            rw [if_pos hnone]
            simp only [assignSegment, hfa, hfind, hcan2, if_true]
            rfl
          · rw [find_update_ne _ a _ h.next (by omega)]
            exact find_alloc_self h (.map [])
          · have hmem : (h.alloc (.map [])).1.find a = some (.struct fs ext) := by
              rw [hfa, hfind]
            rw [tryGetSegment]
            rw [find_update_self _ a _ _ hmem]
            simp only [lookup_setEntry_self, Option.getD_some]
            rfl
  · intro e hstep
    rw [stepSeg] at hstep
    by_cases hnone : tryGetSegment h cur seg = HVal.none
    · rw [if_pos hnone] at hstep
      match cur with
      | .prim w =>
        simp only [assignSegment] at hstep
        simp only [Except.error.injEq] at hstep
        rw [← hstep]
        exact ⟨rfl, rfl, rfl⟩
      | .none =>
        simp only [assignSegment] at hstep
        simp only [Except.error.injEq] at hstep
        rw [← hstep]
        exact ⟨rfl, rfl, rfl⟩
      | .ref a =>
        by_cases ha : a = h.next
        · subst ha
          have hfa : (h.alloc (.map [])).1.find h.next = some (.map []) :=
            find_alloc_self h (.map [])
          simp only [assignSegment, hfa] at hstep
          exact Except.noConfusion hstep
        · have hfa : (h.alloc (.map [])).1.find a = h.find a := by
            rw [Heap.alloc]
            simp only [Heap.find, List.lookup]
            rw [show (a == h.next) = false by simpa using ha]
          match hfind : h.find a with
          | Option.none =>
            rw [hfind] at hfa
            simp only [assignSegment, hfa] at hstep
            simp only [Except.error.injEq] at hstep
            rw [← hstep]
            refine ⟨rfl, ?_, ?_⟩
            · rw [canReadSeg, hfind]
            · rw [canAssignSeg, hfind]
          | some (.map es) =>
            rw [hfind] at hfa
            simp only [assignSegment, hfa] at hstep
            exact Except.noConfusion hstep
          | some (.struct fs ext) =>
            rw [hfind] at hfa
            simp only [assignSegment, hfa] at hstep
            by_cases hcan2 : (ext || (fs.lookup seg).isSome) = true
            · rw [if_pos hcan2] at hstep
              exact Except.noConfusion hstep
            · rw [if_neg hcan2] at hstep
              simp only [Except.error.injEq] at hstep
              rw [← hstep]
              refine ⟨rfl, ?_, ?_⟩
              · rw [canReadSeg, hfind]
                simp only [Bool.or_eq_true, not_or] at hcan2
                simp [hcan2.2]
              · rw [canAssignSeg, hfind]
                exact Bool.of_not_eq_true hcan2
    · rw [if_neg hnone] at hstep
      exact Except.noConfusion hstep

theorem C10_set_by_path_intermediate_segments_witness :
    ∃ h2,
      stepSeg (Heap.mk 1 [(0, HObj.map [("opts", HVal.none)])])
          (HVal.ref 0) "opts" = .ok (h2, .ref 1) ∧
      h2.find 1 = some (.map []) ∧
      tryGetSegment h2 (HVal.ref 0) "opts" = .ref 1 := by
  have hwf : (Heap.mk 1 [(0, HObj.map [("opts", HVal.none)])]).WF := by
    intro p hp
    simp only [List.mem_singleton] at hp
    subst hp
    refine ⟨by norm_num, ?_⟩
    intro r hr
    simp [HObj.refs, HObj.entries, HVal.refs] at hr
  exact (C10_set_by_path_intermediate_segments
    (Heap.mk 1 [(0, HObj.map [("opts", HVal.none)])]) (HVal.ref 0) "opts" hwf).1
    (by decide) (by decide)

end PhysSims
